import Mathlib

/-!
# Sudoku solver (`sudoku_solver.c`): embedding and verification

The C program keeps the puzzle in `int board[9][9]` and solves it by
recursive backtracking.  The board is embedded as a total function on the
81 cells, the loops as folds over the explicit index lists, and the
recursion of `solveSudoku` as a fuel-indexed function (`solveFuel`), called
by `solveSudoku` with more fuel than there are cells.
-/

namespace Sudoku

/-! ## Data model -/

/-- The grid `int board[N][N]` with `N = 9`: one C `int` per cell. -/
abbrev Board := Fin 9 → Fin 9 → Int

/-- The assignment `board[row][col] = v`. -/
def Board.set (b : Board) (row col : Fin 9) (v : Int) : Board :=
  fun r c => if r = row ∧ c = col then v else b r c

/-- The values `0, 1, ..., 8` in the order in which `for (i = 0; i < N; ++i)` visits them. -/
def idx9 : List (Fin 9) := [0, 1, 2, 3, 4, 5, 6, 7, 8]

/-- The values `0, 1, 2` in the order in which `for (r = 0; r < 3; ++r)` visits them. -/
def idx3 : List (Fin 3) := [0, 1, 2]

/-- The values `1, ..., 9` in the order in which `for (num = 1; num <= 9; ++num)` visits them. -/
def digits : List Int := [1, 2, 3, 4, 5, 6, 7, 8, 9]

/-! ## The functions of `sudoku_solver.c` -/

/-- Function `usedInRow`: scan the nine columns of `row`, answer true at the first cell equal to `num`. -/
def usedInRow (b : Board) (row : Fin 9) (num : Int) : Bool :=
  idx9.any (fun col => b row col == num)

/-- Function `usedInCol`: scan the nine rows of `col`, answer true at the first cell equal to `num`. -/
def usedInCol (b : Board) (col : Fin 9) (num : Int) : Bool :=
  idx9.any (fun row => b row col == num)

/-- Function `usedInBox`: scan `board[boxStartRow + r][boxStartCol + c]` for `r, c` in `0..2`.
The origin is typed `Fin 7`, the range in which both sums stay inside the grid. -/
def usedInBox (b : Board) (boxStartRow boxStartCol : Fin 7) (num : Int) : Bool :=
  idx3.any (fun r => idx3.any (fun c =>
    b ⟨boxStartRow.val + r.val, by omega⟩ ⟨boxStartCol.val + c.val, by omega⟩ == num))

/-- Function `isSafe`: `!usedInRow && !usedInCol && !usedInBox` with box origin
`(row - row % 3, col - col % 3)`. -/
def isSafe (b : Board) (row col : Fin 9) (num : Int) : Bool :=
  !usedInRow b row num &&
  !usedInCol b col num &&
  !usedInBox b ⟨row.val - row.val % 3, by omega⟩ ⟨col.val - col.val % 3, by omega⟩ num

/-- Function `findUnassignedLocation`: the nested row/column loops; `some (row, col)` stands
for `return true` with the out-parameters `*row`, `*col` set, `none` for `return false`
(the values the out-parameters then hold are never read by the caller). -/
def findUnassignedLocation (b : Board) : Option (Fin 9 × Fin 9) :=
  idx9.findSome? (fun row => (idx9.find? (fun col => b row col == 0)).map (fun col => (row, col)))

/-- The `for (num ...)` loop of `solveSudoku` on the digits still to try, with the
recursive call abstracted as `solve`.  The board is threaded through: after a failed
recursive call the cell is reset to 0 on the board that call left behind.
`none` is only ever produced by `solve` (fuel exhausted). -/
def tryDigits (solve : Board → Option (Bool × Board)) (row col : Fin 9) :
    List Int → Board → Option (Bool × Board)
  | [], b => some (false, b)
  | num :: rest, b =>
    if isSafe b row col num then
      match solve (b.set row col num) with
      | none => none
      | some (true, b1) => some (true, b1)
      | some (false, b1) => tryDigits solve row col rest (b1.set row col 0)
    else
      tryDigits solve row col rest b

/-- Function `solveSudoku` with a bound `fuel` on the nesting depth of the recursion; the result is
the returned boolean together with the board as the call leaves it, `none` when the
bound is reached. -/
def solveFuel : Nat → Board → Option (Bool × Board)
  | 0, _ => none
  | fuel + 1, b =>
    match findUnassignedLocation b with
    | none => some (true, b)
    | some (row, col) => tryDigits (solveFuel fuel) row col digits b

/-- Function `solveSudoku`, the entry point: the recursion nests at most once per cell (81
cells), so 82 levels are allowed; `solveSudoku_total` shows the bound is never reached. -/
def solveSudoku (b : Board) : Option (Bool × Board) :=
  solveFuel 82 b

/-! ## Specification vocabulary -/

/-- Two cells lie in a common row, column or aligned 3x3 box. -/
def sameUnit (r c r1 c1 : Fin 9) : Prop :=
  r = r1 ∨ c = c1 ∨ (r.val / 3 = r1.val / 3 ∧ c.val / 3 = c1.val / 3)

instance (r c r1 c1 : Fin 9) : Decidable (sameUnit r c r1 c1) := by
  unfold sameUnit; infer_instance

/-- The specification's reading of a safe placement: `d` occurs in no cell other than
`(row, col)` of row `row`, in no cell other than `(row, col)` of column `col`, and in no
cell other than `(row, col)` of the 3x3 box containing `(row, col)`. -/
def NowhereElse (b : Board) (row col : Fin 9) (d : Int) : Prop :=
  (∀ c, c ≠ col → b row c ≠ d) ∧
  (∀ r, r ≠ row → b r col ≠ d) ∧
  (∀ r c, (r, c) ≠ (row, col) → r.val / 3 = row.val / 3 → c.val / 3 = col.val / 3 → b r c ≠ d)

/-- No cell holds 0. -/
def NoZero (b : Board) : Prop := ∀ r c, b r c ≠ 0

/-- Every row, every column and every aligned 3x3 box contains each digit 1..9 exactly once
(the nine cells of each unit are a permutation of 1..9).  Box `(br, bc)` consists of the
cells `(r, c)` with `r / 3 = br` and `c / 3 = bc`. -/
def ValidGrid (b : Board) : Prop :=
  ∀ d : Int, 1 ≤ d → d ≤ 9 →
    (∀ r : Fin 9, ∃! c : Fin 9, b r c = d) ∧
    (∀ c : Fin 9, ∃! r : Fin 9, b r c = d) ∧
    (∀ br bc : Fin 3, ∃! p : Fin 9 × Fin 9,
      (p.1.val / 3 = br.val ∧ p.2.val / 3 = bc.val) ∧ b p.1 p.2 = d)

/-- Output `out` agrees with input `b` on every cell that is non-zero in `b`. -/
def Agrees (b out : Board) : Prop := ∀ r c, b r c ≠ 0 → out r c = b r c

/-- Well-formed input: every cell is in 0..9 and no non-zero value occurs in two different
cells of a common row, column or box. -/
def WellFormed (b : Board) : Prop :=
  (∀ r c, 0 ≤ b r c ∧ b r c ≤ 9) ∧
  (∀ r c r1 c1, (r, c) ≠ (r1, c1) → sameUnit r c r1 c1 → b r c ≠ 0 → b r c ≠ b r1 c1)

/-- Grid `s` is a valid completion of `b`: all cells in 1..9, every unit a permutation of
1..9, and `s` agrees with `b` on the non-zero cells of `b`. -/
def IsCompletion (b s : Board) : Prop :=
  (∀ r c, 1 ≤ s r c ∧ s r c ≤ 9) ∧ ValidGrid s ∧ Agrees b s

/-- Some digit 1..9 sits in the two different cells `(r, c)` and `(r1, c1)` of a common
row, column or box. -/
def Conflict (b : Board) (r c r1 c1 : Fin 9) (d : Int) : Prop :=
  1 ≤ d ∧ d ≤ 9 ∧ (r, c) ≠ (r1, c1) ∧ sameUnit r c r1 c1 ∧ b r c = d ∧ b r1 c1 = d

/-- Every cell that is empty in `b` holds in `out` a digit 1..9 that differs from every
other cell of its row, of its column and of its box in `out`. -/
def FilledSafely (b out : Board) : Prop :=
  ∀ r c, b r c = 0 →
    (1 ≤ out r c ∧ out r c ≤ 9) ∧
    ∀ r1 c1, (r1, c1) ≠ (r, c) → sameUnit r c r1 c1 → out r1 c1 ≠ out r c

/-- Number of cells holding 0. -/
def zeros (b : Board) : Nat :=
  (Finset.univ.filter (fun p : Fin 9 × Fin 9 => b p.1 p.2 = 0)).card

/-- No non-zero value occurs in two different cells of a common row, column or box. -/
def Consistent (b : Board) : Prop :=
  ∀ r c r1 c1, (r, c) ≠ (r1, c1) → sameUnit r c r1 c1 → b r c ≠ 0 → b r c ≠ b r1 c1

/-- Lexicographic order on boards read as 81 cells in row-major order: `t` equals `s`, or
at the first cell where they differ `t` holds the smaller value. -/
def LexLE (t s : Board) : Prop :=
  t = s ∨ ∃ r c, t r c < s r c ∧ ∀ r1 c1, (r1 < r ∨ (r1 = r ∧ c1 < c)) → t r1 c1 = s r1 c1

/-! ## The recursive calls of one invocation -/

/-- The boards on which the `for (num ...)` loop of `solveSudoku` makes its recursive calls,
in the order of the calls: the loop of `tryDigits` with the argument of each call recorded.
The loop goes on after a call only when that call returned false. -/
def tryDigitsCalls (solve : Board → Option (Bool × Board)) (row col : Fin 9) :
    List Int → Board → List Board
  | [], _ => []
  | num :: rest, b =>
    if isSafe b row col num then
      b.set row col num ::
        match solve (b.set row col num) with
        | some (false, b1) => tryDigitsCalls solve row col rest (b1.set row col 0)
        | _ => []
    else
      tryDigitsCalls solve row col rest b

/-- The boards on which an invocation of `solveSudoku` on `b` calls `solveSudoku`
recursively (direct calls only; each of them is an invocation with recursive calls of
its own). -/
def recursiveCalls (b : Board) : List Board :=
  match findUnassignedLocation b with
  | none => []
  | some (row, col) => tryDigitsCalls solveSudoku row col digits b

/-- The invocation of `solveSudoku` on `b` calls `solveSudoku` on `x`. -/
def CallStep (b x : Board) : Prop := x ∈ recursiveCalls b

/-- The cells `usedInBox` reads, in the order of its two loops. -/
def boxScan (boxStartRow boxStartCol : Fin 7) : List (Fin 9 × Fin 9) :=
  idx3.flatMap (fun r => idx3.map (fun c =>
    ((⟨boxStartRow.val + r.val, by omega⟩ : Fin 9), (⟨boxStartCol.val + c.val, by omega⟩ : Fin 9))))

/-! ## The same functions with bounds-checked indexing

The functions once more, with C `int` indices and every access to `board[r][c]` going
through a check of both indices against `0..8`: an access outside the grid ends the run with
`none` (`outOfBounds` in the solver).  The loops are written as scans of the list of cells
they visit, in the order they visit them. -/

/-- Read of `board[r][c]`: `none` when an index is outside `0..8`. -/
def readCell (b : Board) (r c : Int) : Option Int :=
  if h : (0 ≤ r ∧ r < 9) ∧ (0 ≤ c ∧ c < 9) then
    some (b ⟨r.toNat, by omega⟩ ⟨c.toNat, by omega⟩)
  else none

/-- Write `board[r][c] = v`: `none` when an index is outside `0..8`. -/
def writeCell (b : Board) (r c : Int) (v : Int) : Option Board :=
  if h : (0 ≤ r ∧ r < 9) ∧ (0 ≤ c ∧ c < 9) then
    some (b.set ⟨r.toNat, by omega⟩ ⟨c.toNat, by omega⟩ v)
  else none

/-- The values of an `int` loop variable running from 0 while `< N`. -/
def ints9 : List Int := [0, 1, 2, 3, 4, 5, 6, 7, 8]

/-- The values of an `int` loop variable running from 0 while `< 3`. -/
def ints3 : List Int := [0, 1, 2]

/-- Loop `if (board[r][c] == num) return true;` over the cells of a scan, `return false`
after the last one. -/
def scanCells (b : Board) (num : Int) : List (Int × Int) → Option Bool
  | [] => some false
  | (r, c) :: rest =>
    match readCell b r c with
    | none => none
    | some v => if v == num then some true else scanCells b num rest

/-- Function `usedInRow` with checked reads. -/
def usedInRowChecked (b : Board) (row num : Int) : Option Bool :=
  scanCells b num (ints9.map (fun col => (row, col)))

/-- Function `usedInCol` with checked reads. -/
def usedInColChecked (b : Board) (col num : Int) : Option Bool :=
  scanCells b num (ints9.map (fun row => (row, col)))

/-- Function `usedInBox` with checked reads of `board[boxStartRow + r][boxStartCol + c]`. -/
def usedInBoxChecked (b : Board) (boxStartRow boxStartCol num : Int) : Option Bool :=
  scanCells b num
    (ints3.flatMap (fun r => ints3.map (fun c => (boxStartRow + r, boxStartCol + c))))

/-- Function `isSafe` with checked reads; `&&` evaluates its right operand only when the left
one is true, and `%` on `int` truncates towards zero. -/
def isSafeChecked (b : Board) (row col num : Int) : Option Bool :=
  match usedInRowChecked b row num with
  | none => none
  | some true => some false
  | some false =>
    match usedInColChecked b col num with
    | none => none
    | some true => some false
    | some false =>
      match usedInBoxChecked b (row - row.tmod 3) (col - col.tmod 3) num with
      | none => none
      | some used => some (!used)

/-- Loop `if (board[*row][*col] == 0) return true;` over the cells of a scan. -/
def findZero (b : Board) : List (Int × Int) → Option (Option (Int × Int))
  | [] => some none
  | (r, c) :: rest =>
    match readCell b r c with
    | none => none
    | some v => if v == 0 then some (some (r, c)) else findZero b rest

/-- Function `findUnassignedLocation` with checked reads: outer `none` is an access outside
the grid, `some none` is `return false`, `some (some (row, col))` is `return true`. -/
def findUnassignedLocationChecked (b : Board) : Option (Option (Int × Int)) :=
  findZero b (ints9.flatMap (fun row => ints9.map (fun col => (row, col))))

/-- How a run of the checked solver ends. -/
inductive Outcome where
  | done (v : Bool) (b : Board)
  | outOfBounds
  | outOfFuel

/-- A result of the unchecked solver as an outcome. -/
def Outcome.ofResult : Option (Bool × Board) → Outcome
  | none => Outcome.outOfFuel
  | some (v, b) => Outcome.done v b

/-- The digit loop of `solveSudoku` with checked reads and writes. -/
def tryDigitsChecked (solve : Board → Outcome) (row col : Int) :
    List Int → Board → Outcome
  | [], b => Outcome.done false b
  | num :: rest, b =>
    match isSafeChecked b row col num with
    | none => Outcome.outOfBounds
    | some false => tryDigitsChecked solve row col rest b
    | some true =>
      match writeCell b row col num with
      | none => Outcome.outOfBounds
      | some b1 =>
        match solve b1 with
        | Outcome.done true b2 => Outcome.done true b2
        | Outcome.done false b2 =>
          match writeCell b2 row col 0 with
          | none => Outcome.outOfBounds
          | some b3 => tryDigitsChecked solve row col rest b3
        | Outcome.outOfBounds => Outcome.outOfBounds
        | Outcome.outOfFuel => Outcome.outOfFuel

/-- Function `solveSudoku` with checked reads and writes and a bound on the nesting depth. -/
def solveFuelChecked : Nat → Board → Outcome
  | 0, _ => Outcome.outOfFuel
  | fuel + 1, b =>
    match findUnassignedLocationChecked b with
    | none => Outcome.outOfBounds
    | some none => Outcome.done true b
    | some (some (row, col)) => tryDigitsChecked (solveFuelChecked fuel) row col digits b

/-- Function `solveSudoku` with checked reads and writes. -/
def solveSudokuChecked (b : Board) : Outcome :=
  solveFuelChecked 82 b

/-- Build a board from its 81 values listed row by row (missing entries are 0). -/
def Board.ofList (l : List Int) : Board :=
  fun r c => l.getD (9 * r.val + c.val) 0

/-! ## Concrete boards -/

/-- A completely and validly filled grid. -/
def solvedGrid : Board := Board.ofList
  [5,3,4,6,7,8,9,1,2,
   6,7,2,1,9,5,3,4,8,
   1,9,8,3,4,2,5,6,7,
   8,5,9,7,6,1,4,2,3,
   4,2,6,8,5,3,7,9,1,
   7,1,3,9,2,4,8,5,6,
   9,6,1,5,3,7,2,8,4,
   2,8,7,4,1,9,6,3,5,
   3,4,5,2,8,6,1,7,9]

/-- The grid `solvedGrid` with the cells (0,0) and (4,4) emptied. -/
def puzzleA : Board := (solvedGrid.set 0 0 0).set 4 4 0

/-- What the solver leaves on `puzzleA`. -/
def puzzleAOut : Board := (puzzleA.set 0 0 5).set 4 4 5

/-- The grid `solvedGrid` with the cells (0,0), (0,1) and (8,0) emptied: at (0,0) the digit 3
is safe but leads nowhere, so the search has to take it back. -/
def puzzleB : Board := ((solvedGrid.set 0 0 0).set 0 1 0).set 8 0 0

/-- What the solver leaves on `puzzleB`: 3 placed at (0,0) and taken back, then 5, 3 and 3. -/
def puzzleBOut : Board :=
  ((((puzzleB.set 0 0 3).set 0 0 0).set 0 0 5).set 0 1 3).set 8 0 3

/-- A well-formed board without solution: the cells (0,0) and (0,1) must take 1 and 2, and
column 1 already holds both. -/
def deadEnd : Board := Board.ofList
  [0,0,3,4,5,6,7,8,9,
   0,0,0,0,0,0,0,0,0,
   0,0,0,0,0,0,0,0,0,
   0,1,0,0,0,0,0,0,0,
   0,2,0,0,0,0,0,0,0]

/-- What the solver leaves on `deadEnd`: 1 placed at (0,0) and taken back, then 2. -/
def deadEndOut : Board := (((deadEnd.set 0 0 1).set 0 0 0).set 0 0 2).set 0 0 0

/-- The board whose 81 cells are all 0. -/
def emptyBoard : Board := fun _ _ => 0

/-- The full board with 5 in every cell. -/
def allFives : Board := fun _ _ => 5

/-- The grid `solvedGrid` with a second 5 written in row 0 (at (0,1)) and cell (8,8) emptied. -/
def twoFives : Board := (solvedGrid.set 0 1 5).set 8 8 0

/-- The empty board with a single 5 at (0,0). -/
def lone5 : Board := Board.set (fun _ _ => 0) 0 0 5

/-! ## Index lists and the scanning functions -/

theorem mem_idx9 (i : Fin 9) : i ∈ idx9 := by
  revert i; decide

theorem mem_idx3 (i : Fin 3) : i ∈ idx3 := by
  revert i; decide

theorem idx9_sorted : idx9.Pairwise (fun a b => a < b) := by
  decide

theorem usedInRow_iff (b : Board) (row : Fin 9) (num : Int) :
    usedInRow b row num = true ↔ ∃ c, b row c = num := by
  unfold usedInRow
  rw [List.any_eq_true]
  constructor
  · rintro ⟨c, _, hc⟩
    exact ⟨c, by simpa using hc⟩
  · rintro ⟨c, hc⟩
    exact ⟨c, mem_idx9 c, by simpa using hc⟩

theorem usedInCol_iff (b : Board) (col : Fin 9) (num : Int) :
    usedInCol b col num = true ↔ ∃ r, b r col = num := by
  unfold usedInCol
  rw [List.any_eq_true]
  constructor
  · rintro ⟨r, _, hr⟩
    exact ⟨r, by simpa using hr⟩
  · rintro ⟨r, hr⟩
    exact ⟨r, mem_idx9 r, by simpa using hr⟩

theorem usedInBox_iff (b : Board) (row col : Fin 9) (num : Int) :
    usedInBox b ⟨row.val - row.val % 3, by omega⟩ ⟨col.val - col.val % 3, by omega⟩ num = true ↔
      ∃ r c : Fin 9, (r.val / 3 = row.val / 3 ∧ c.val / 3 = col.val / 3) ∧ b r c = num := by
  unfold usedInBox
  rw [List.any_eq_true]
  constructor
  · rintro ⟨i, _, hi⟩
    rw [List.any_eq_true] at hi
    obtain ⟨j, _, hj⟩ := hi
    refine ⟨⟨row.val - row.val % 3 + i.val, by omega⟩, ⟨col.val - col.val % 3 + j.val, by omega⟩,
      ⟨?_, ?_⟩, by simpa using hj⟩
    · show (row.val - row.val % 3 + i.val) / 3 = row.val / 3
      omega
    · show (col.val - col.val % 3 + j.val) / 3 = col.val / 3
      omega
  · rintro ⟨r, c, ⟨hr, hc⟩, hrc⟩
    refine ⟨⟨r.val % 3, by omega⟩, mem_idx3 _, ?_⟩
    rw [List.any_eq_true]
    refine ⟨⟨c.val % 3, by omega⟩, mem_idx3 _, ?_⟩
    have e1 : (⟨row.val - row.val % 3 + r.val % 3, by omega⟩ : Fin 9) = r := by
      apply Fin.ext
      show row.val - row.val % 3 + r.val % 3 = r.val
      omega
    have e2 : (⟨col.val - col.val % 3 + c.val % 3, by omega⟩ : Fin 9) = c := by
      apply Fin.ext
      show col.val - col.val % 3 + c.val % 3 = c.val
      omega
    simp only [e1, e2]
    simpa using hrc

/-- What `isSafe` computes: `num` equals no cell of the row, of the column and of the box
of `(row, col)`, the cell `(row, col)` itself included. -/
theorem isSafe_iff (b : Board) (row col : Fin 9) (num : Int) :
    isSafe b row col num = true ↔ ∀ r c, sameUnit row col r c → b r c ≠ num := by
  have hrow := usedInRow_iff b row num
  have hcol := usedInCol_iff b col num
  have hbox := usedInBox_iff b row col num
  unfold isSafe
  simp only [Bool.and_eq_true, Bool.not_eq_true', ← Bool.not_eq_true]
  rw [hrow, hcol, hbox]
  constructor
  · rintro ⟨⟨h1, h2⟩, h3⟩ r c hu hv
    rcases hu with hu | hu | hu
    · subst hu; exact h1 ⟨c, hv⟩
    · subst hu; exact h2 ⟨r, hv⟩
    · exact h3 ⟨r, c, ⟨hu.1.symm, hu.2.symm⟩, hv⟩
  · intro h
    refine ⟨⟨?_, ?_⟩, ?_⟩
    · rintro ⟨c, hc⟩; exact h row c (Or.inl rfl) hc
    · rintro ⟨r, hr⟩; exact h r col (Or.inr (Or.inl rfl)) hr
    · rintro ⟨r, c, ⟨h1, h2⟩, hv⟩
      exact h r c (Or.inr (Or.inr ⟨h1.symm, h2.symm⟩)) hv

theorem find?_sorted {p : Fin 9 → Bool} {l : List (Fin 9)} {a : Fin 9}
    (hs : l.Pairwise (fun x y => x < y)) (h : l.find? p = some a) :
    p a = true ∧ ∀ x ∈ l, x < a → p x = false := by
  rw [List.find?_eq_some] at h
  obtain ⟨hp, as, bs, rfl, has⟩ := h
  refine ⟨hp, fun x hx hlt => ?_⟩
  rw [List.pairwise_append] at hs
  obtain ⟨_, hs2, _⟩ := hs
  rw [List.pairwise_cons] at hs2
  rcases List.mem_append.1 hx with hx | hx
  · simpa using has x hx
  · rcases List.mem_cons.1 hx with hx | hx
    · subst hx; exact absurd hlt (lt_irrefl _)
    · exact absurd (hs2.1 x hx) (not_lt.2 (le_of_lt hlt))

theorem findUnassignedLocation_none (b : Board) :
    findUnassignedLocation b = none ↔ ∀ r c, b r c ≠ 0 := by
  unfold findUnassignedLocation
  rw [List.findSome?_eq_none_iff]
  constructor
  · intro h r c
    have h1 := h r (mem_idx9 r)
    rw [Option.map_eq_none', List.find?_eq_none] at h1
    simpa using h1 c (mem_idx9 c)
  · intro h r _
    rw [Option.map_eq_none', List.find?_eq_none]
    intro c _
    simpa using h r c

theorem findUnassignedLocation_some (b : Board) (row col : Fin 9)
    (h : findUnassignedLocation b = some (row, col)) :
    b row col = 0 ∧ ∀ r c, (r < row ∨ (r = row ∧ c < col)) → b r c ≠ 0 := by
  unfold findUnassignedLocation at h
  rw [List.findSome?_eq_some_iff] at h
  obtain ⟨l1, a, l2, hl, ha, hbefore⟩ := h
  rw [Option.map_eq_some'] at ha
  obtain ⟨c0, hfind, hpair⟩ := ha
  have ha' : a = row := congrArg Prod.fst hpair
  have hc' : c0 = col := congrArg Prod.snd hpair
  subst ha'; subst hc'
  obtain ⟨hz, hcols⟩ := find?_sorted idx9_sorted hfind
  refine ⟨by simpa using hz, ?_⟩
  rintro r c (hlt | ⟨rfl, hlt⟩)
  · have hs := idx9_sorted
    rw [hl, List.pairwise_append] at hs
    obtain ⟨_, hs2, _⟩ := hs
    rw [List.pairwise_cons] at hs2
    have hr : r ∈ l1 := by
      have hm : r ∈ l1 ++ a :: l2 := hl ▸ mem_idx9 r
      rcases List.mem_append.1 hm with hm | hm
      · exact hm
      · rcases List.mem_cons.1 hm with hm | hm
        · subst hm; exact absurd hlt (lt_irrefl _)
        · exact absurd (hs2.1 r hm) (not_lt.2 (le_of_lt hlt))
    have h1 := hbefore r hr
    rw [Option.map_eq_none', List.find?_eq_none] at h1
    simpa using h1 c (mem_idx9 c)
  · simpa using hcols c (mem_idx9 c) hlt


/-! ## Writing a cell -/

theorem set_same (b : Board) (row col : Fin 9) (v : Int) : (b.set row col v) row col = v := by
  simp [Board.set]

theorem set_other (b : Board) (row col : Fin 9) (v : Int) (r c : Fin 9)
    (h : (r, c) ≠ (row, col)) : (b.set row col v) r c = b r c := by
  unfold Board.set
  rw [if_neg]
  rintro ⟨rfl, rfl⟩
  exact h rfl

/-- Placing a digit in an empty cell and resetting the cell to 0 gives the board back. -/
theorem set_set_zero (b : Board) (row col : Fin 9) (v : Int) (h0 : b row col = 0) :
    (b.set row col v).set row col 0 = b := by
  funext r c
  unfold Board.set
  by_cases h : r = row ∧ c = col
  · obtain ⟨rfl, rfl⟩ := h
    simp [h0]
  · simp [h]

/-- Placing a non-zero value in an empty cell removes exactly that cell from the zero cells. -/
theorem zeros_set (b : Board) (row col : Fin 9) (v : Int) (h0 : b row col = 0) (hv : v ≠ 0) :
    zeros (b.set row col v) + 1 = zeros b := by
  unfold zeros
  have hmem : (row, col) ∈ Finset.univ.filter (fun p : Fin 9 × Fin 9 => b p.1 p.2 = 0) := by
    simp [h0]
  have heq : Finset.univ.filter (fun p : Fin 9 × Fin 9 => (b.set row col v) p.1 p.2 = 0) =
      (Finset.univ.filter (fun p : Fin 9 × Fin 9 => b p.1 p.2 = 0)).erase (row, col) := by
    ext ⟨r, c⟩
    simp only [Finset.mem_filter, Finset.mem_univ, true_and, Finset.mem_erase, ne_eq]
    by_cases h : (r, c) = (row, col)
    · have h1 : r = row := congrArg Prod.fst h
      have h2 : c = col := congrArg Prod.snd h
      subst h1; subst h2
      simp [set_same, hv]
    · rw [set_other b row col v r c h]
      simp [h]
  rw [heq, Finset.card_erase_of_mem hmem]
  have hpos : 0 < (Finset.univ.filter (fun p : Fin 9 × Fin 9 => b p.1 p.2 = 0)).card :=
    Finset.card_pos.2 ⟨_, hmem⟩
  omega

theorem zeros_le (b : Board) : zeros b ≤ 81 := by
  unfold zeros
  calc (Finset.univ.filter (fun p : Fin 9 × Fin 9 => b p.1 p.2 = 0)).card
      ≤ (Finset.univ : Finset (Fin 9 × Fin 9)).card := Finset.card_filter_le _ _
    _ = 81 := by simp

theorem digits_range : ∀ d ∈ digits, (1 : Int) ≤ d ∧ d ≤ 9 := by
  decide

theorem mem_digits (d : Int) (h1 : 1 ≤ d) (h9 : d ≤ 9) : d ∈ digits := by
  unfold digits
  have : d = 1 ∨ d = 2 ∨ d = 3 ∨ d = 4 ∨ d = 5 ∨ d = 6 ∨ d = 7 ∨ d = 8 ∨ d = 9 := by omega
  simp only [List.mem_cons, List.mem_singleton, List.mem_nil_iff, or_false]
  exact this

/-! ## The digit loop under a recursive call that restores the board on failure -/

/-- One round of the digit loop, for a recursive call that leaves the board as it found it
when it fails: the loop continues on the unchanged board. -/
theorem tryDigits_cons (solve : Board → Option (Bool × Board)) (row col : Fin 9)
    (hres : ∀ x y, solve x = some (false, y) → y = x)
    (num : Int) (rest : List Int) (b : Board) (h0 : b row col = 0) :
    tryDigits solve row col (num :: rest) b =
      if isSafe b row col num then
        match solve (b.set row col num) with
        | none => none
        | some (true, b1) => some (true, b1)
        | some (false, _) => tryDigits solve row col rest b
      else tryDigits solve row col rest b := by
  rw [tryDigits]
  split
  · rename_i hs
    cases hsol : solve (b.set row col num) with
    | none => rfl
    | some res =>
      obtain ⟨v, y⟩ := res
      cases v
      · have hy := hres _ _ hsol
        subst hy
        simp only [set_set_zero b row col num h0]
      · rfl
  · rfl

/-- The digit loop returns false only with the board it started from. -/
theorem tryDigits_false (solve : Board → Option (Bool × Board)) (row col : Fin 9)
    (hres : ∀ x y, solve x = some (false, y) → y = x)
    (ds : List Int) (b : Board) (h0 : b row col = 0) (out : Board)
    (h : tryDigits solve row col ds b = some (false, out)) : out = b := by
  induction ds with
  | nil =>
    simp only [tryDigits, Option.some.injEq, Prod.mk.injEq, true_and] at h
    exact h.symm
  | cons num rest ih =>
    rw [tryDigits_cons solve row col hres num rest b h0] at h
    split at h
    · split at h
      · exact absurd h (by simp)
      · simp at h
      · exact ih h
    · exact ih h

/-- Restoration: whenever the solver returns false, the board is the board it received. -/
theorem solveFuel_false (fuel : Nat) :
    ∀ b out, solveFuel fuel b = some (false, out) → out = b := by
  induction fuel with
  | zero => intro b out h; simp [solveFuel] at h
  | succ n ih =>
    intro b out h
    rw [solveFuel] at h
    split at h
    · simp at h
    · rename_i row col hfind
      exact tryDigits_false (solveFuel n) row col ih digits b
        (findUnassignedLocation_some b row col hfind).1 out h


/-! ## What a successful search leaves on the board -/

theorem sameUnit_symm {r c r1 c1 : Fin 9} (h : sameUnit r c r1 c1) : sameUnit r1 c1 r c := by
  rcases h with h | h | h
  · exact Or.inl h.symm
  · exact Or.inr (Or.inl h.symm)
  · exact Or.inr (Or.inr ⟨h.1.symm, h.2.symm⟩)

/-- The guarantees pass from the board with a safely placed digit to the board before it. -/
theorem post_step (b out : Board) (row col : Fin 9) (num : Int)
    (h0 : b row col = 0) (hnum : 1 ≤ num ∧ num ≤ 9) (hsafe : isSafe b row col num = true)
    (hp : Agrees (b.set row col num) out ∧ NoZero out ∧ FilledSafely (b.set row col num) out) :
    Agrees b out ∧ NoZero out ∧ FilledSafely b out := by
  obtain ⟨hag, hnz, hfs⟩ := hp
  have hnum0 : num ≠ 0 := by omega
  have hcell : out row col = num := by
    have := hag row col (by rw [set_same]; exact hnum0)
    rwa [set_same] at this
  have hag' : Agrees b out := by
    intro r c hrc
    have hne : (r, c) ≠ (row, col) := by
      intro h
      have h1 : r = row := congrArg Prod.fst h
      have h2 : c = col := congrArg Prod.snd h
      subst h1; subst h2
      exact hrc h0
    have := hag r c (by rw [set_other b row col num r c hne]; exact hrc)
    rwa [set_other b row col num r c hne] at this
  refine ⟨hag', hnz, ?_⟩
  intro r c hrc
  by_cases hne : (r, c) = (row, col)
  · have h1 : r = row := congrArg Prod.fst hne
    have h2 : c = col := congrArg Prod.snd hne
    subst h1; subst h2
    rw [hcell]
    refine ⟨hnum, ?_⟩
    intro r1 c1 hne1 hu
    by_cases hz : b r1 c1 = 0
    · have h := (hfs r1 c1 (by rw [set_other b r c num r1 c1 hne1]; exact hz)).2 r c
        (fun e => hne1 e.symm) (sameUnit_symm hu)
      rw [hcell] at h
      exact fun e => h e.symm
    · rw [hag' r1 c1 hz]
      exact (isSafe_iff b r c num).1 hsafe r1 c1 hu
  · exact hfs r c (by rw [set_other b row col num r c hne]; exact hrc)

theorem tryDigits_true (solve : Board → Option (Bool × Board)) (row col : Fin 9)
    (hres : ∀ x y, solve x = some (false, y) → y = x)
    (hpost : ∀ x y, solve x = some (true, y) → Agrees x y ∧ NoZero y ∧ FilledSafely x y)
    (ds : List Int) (hds : ∀ d ∈ ds, (1 : Int) ≤ d ∧ d ≤ 9)
    (b : Board) (h0 : b row col = 0) (out : Board)
    (h : tryDigits solve row col ds b = some (true, out)) :
    Agrees b out ∧ NoZero out ∧ FilledSafely b out := by
  induction ds with
  | nil => simp [tryDigits] at h
  | cons num rest ih =>
    have ih' := ih (fun d hd => hds d (List.mem_cons_of_mem _ hd))
    rw [tryDigits_cons solve row col hres num rest b h0] at h
    split at h
    · rename_i hsafe
      split at h
      · exact absurd h (by simp)
      · rename_i b1 hsol
        simp only [Option.some.injEq, Prod.mk.injEq, true_and] at h
        subst h
        exact post_step b b1 row col num h0 (hds num (List.mem_cons_self _ _)) hsafe
          (hpost _ _ hsol)
      · exact ih' h
    · exact ih' h

/-- Whenever the solver returns true, the board it leaves has no empty cell, keeps every
given cell, and every cell it filled holds a digit 1..9 unlike all other cells of its units. -/
theorem solveFuel_true (fuel : Nat) :
    ∀ b out, solveFuel fuel b = some (true, out) →
      Agrees b out ∧ NoZero out ∧ FilledSafely b out := by
  induction fuel with
  | zero => intro b out h; simp [solveFuel] at h
  | succ n ih =>
    intro b out h
    rw [solveFuel] at h
    split at h
    · rename_i hfind
      simp only [Option.some.injEq, Prod.mk.injEq, true_and] at h
      subst h
      have hnz := (findUnassignedLocation_none b).1 hfind
      exact ⟨fun _ _ _ => rfl, hnz, fun r c hrc => absurd hrc (hnz r c)⟩
    · rename_i row col hfind
      exact tryDigits_true (solveFuel n) row col (solveFuel_false n) ih digits digits_range b
        (findUnassignedLocation_some b row col hfind).1 out h

/-! ## Termination within the fuel -/

theorem tryDigits_total (solve : Board → Option (Bool × Board)) (row col : Fin 9) (n : Nat)
    (hres : ∀ x y, solve x = some (false, y) → y = x)
    (htot : ∀ x, zeros x < n → ∃ res, solve x = some res)
    (ds : List Int) (hds : ∀ d ∈ ds, (1 : Int) ≤ d ∧ d ≤ 9)
    (b : Board) (h0 : b row col = 0) (hz : zeros b < n + 1) :
    ∃ res, tryDigits solve row col ds b = some res := by
  induction ds with
  | nil => exact ⟨_, rfl⟩
  | cons num rest ih =>
    have ih' := ih (fun d hd => hds d (List.mem_cons_of_mem _ hd))
    rw [tryDigits_cons solve row col hres num rest b h0]
    split
    · have hnum := hds num (List.mem_cons_self _ _)
      have hzs := zeros_set b row col num h0 (by omega)
      obtain ⟨res, hsol⟩ := htot (b.set row col num) (by omega)
      rw [hsol]
      obtain ⟨v, y⟩ := res
      cases v
      · exact ih'
      · exact ⟨_, rfl⟩
    · exact ih'

theorem solveFuel_total (fuel : Nat) :
    ∀ b, zeros b < fuel → ∃ res, solveFuel fuel b = some res := by
  induction fuel with
  | zero => intro b h; exact absurd h (Nat.not_lt_zero _)
  | succ n ih =>
    intro b hz
    rw [solveFuel]
    split
    · exact ⟨_, rfl⟩
    · rename_i row col hfind
      exact tryDigits_total (solveFuel n) row col n (solveFuel_false n) ih digits digits_range b
        (findUnassignedLocation_some b row col hfind).1 hz

/-- The solver returns on every board. -/
theorem solveSudoku_total (b : Board) : ∃ res, solveSudoku b = some res :=
  solveFuel_total 82 b (Nat.lt_succ_of_le (zeros_le b))


/-! ## Valid grids: "each digit exactly once" against "no two cells of a unit alike" -/

/-- In a valid grid a digit 1..9 cannot sit in two different cells of a unit. -/
theorem valid_no_conflict (s : Board) (hv : ValidGrid s) (r c r1 c1 : Fin 9) (d : Int)
    (hc : Conflict s r c r1 c1 d) : False := by
  obtain ⟨h1, h9, hne, hu, e1, e2⟩ := hc
  obtain ⟨hrow, hcol, hbox⟩ := hv d h1 h9
  rcases hu with hu | hu | hu
  · subst hu
    have := (hrow r).unique e1 e2
    exact hne (by rw [this])
  · subst hu
    have := (hcol c).unique e1 e2
    exact hne (by rw [this])
  · have hp : ((r, c) : Fin 9 × Fin 9) = (r1, c1) :=
      (hbox ⟨r.val / 3, by omega⟩ ⟨c.val / 3, by omega⟩).unique
        ⟨⟨rfl, rfl⟩, e1⟩ ⟨⟨hu.1.symm, hu.2.symm⟩, e2⟩
    exact hne hp

/-- In a valid grid with cells in 1..9, two different cells of a unit differ. -/
theorem valid_distinct (s : Board) (hr : ∀ r c, 1 ≤ s r c ∧ s r c ≤ 9) (hv : ValidGrid s)
    (r c r1 c1 : Fin 9) (hne : (r, c) ≠ (r1, c1)) (hu : sameUnit r c r1 c1) :
    s r c ≠ s r1 c1 :=
  fun heq => valid_no_conflict s hv r c r1 c1 (s r c)
    ⟨(hr r c).1, (hr r c).2, hne, hu, rfl, heq.symm⟩

/-- Pigeonhole on one unit: nine cells holding pairwise different values in 1..9 hold each
digit exactly once. -/
theorem unit_exactly_once (S : Finset (Fin 9 × Fin 9)) (hS : S.card = 9) (f : Fin 9 × Fin 9 → Int)
    (hrange : ∀ p ∈ S, 1 ≤ f p ∧ f p ≤ 9)
    (hinj : ∀ p ∈ S, ∀ q ∈ S, p ≠ q → f p ≠ f q)
    (d : Int) (h1 : 1 ≤ d) (h9 : d ≤ 9) : ∃! p, p ∈ S ∧ f p = d := by
  have hInj : Set.InjOn f (S : Set (Fin 9 × Fin 9)) := by
    intro p hp q hq hpq
    by_contra hne
    exact hinj p hp q hq hne hpq
  have hsub : S.image f ⊆ Finset.Icc 1 9 := by
    intro x hx
    obtain ⟨p, hp, rfl⟩ := Finset.mem_image.1 hx
    exact Finset.mem_Icc.2 (hrange p hp)
  have hcard : (Finset.Icc (1 : Int) 9).card ≤ (S.image f).card := by
    rw [Finset.card_image_of_injOn hInj, hS, Int.card_Icc]
    decide
  have heq := Finset.eq_of_subset_of_card_le hsub hcard
  have hd : d ∈ S.image f := by
    rw [heq]
    exact Finset.mem_Icc.2 ⟨h1, h9⟩
  obtain ⟨p, hp, hfp⟩ := Finset.mem_image.1 hd
  refine ⟨p, ⟨hp, hfp⟩, ?_⟩
  rintro q ⟨hq, hfq⟩
  exact hInj hq hp (hfq.trans hfp.symm)

theorem rowSet_card (r : Fin 9) :
    (Finset.univ.filter (fun p : Fin 9 × Fin 9 => p.1 = r)).card = 9 := by
  revert r; decide

theorem colSet_card (c : Fin 9) :
    (Finset.univ.filter (fun p : Fin 9 × Fin 9 => p.2 = c)).card = 9 := by
  revert c; decide

theorem boxSet_card (br bc : Fin 3) :
    (Finset.univ.filter
      (fun p : Fin 9 × Fin 9 => p.1.val / 3 = br.val ∧ p.2.val / 3 = bc.val)).card = 9 := by
  revert br bc; decide

/-- A grid with all cells in 1..9 in which two different cells of a unit always differ is
valid. -/
theorem distinct_valid (s : Board) (hr : ∀ r c, 1 ≤ s r c ∧ s r c ≤ 9)
    (hd : ∀ r c r1 c1, (r, c) ≠ (r1, c1) → sameUnit r c r1 c1 → s r c ≠ s r1 c1) :
    ValidGrid s := by
  intro d h1 h9
  refine ⟨?_, ?_, ?_⟩
  · intro r
    obtain ⟨p, ⟨hp, hfp⟩, huniq⟩ := unit_exactly_once _ (rowSet_card r) (fun p => s p.1 p.2)
      (fun p _ => hr p.1 p.2)
      (fun p hp q hq hne => hd p.1 p.2 q.1 q.2 hne
        (Or.inl ((Finset.mem_filter.1 hp).2.trans (Finset.mem_filter.1 hq).2.symm)))
      d h1 h9
    have hp1 : p.1 = r := (Finset.mem_filter.1 hp).2
    refine ⟨p.2, by rw [← hp1]; exact hfp, ?_⟩
    intro c hc
    have := huniq (r, c) ⟨Finset.mem_filter.2 ⟨Finset.mem_univ _, rfl⟩, hc⟩
    exact congrArg Prod.snd this
  · intro c
    obtain ⟨p, ⟨hp, hfp⟩, huniq⟩ := unit_exactly_once _ (colSet_card c) (fun p => s p.1 p.2)
      (fun p _ => hr p.1 p.2)
      (fun p hp q hq hne => hd p.1 p.2 q.1 q.2 hne
        (Or.inr (Or.inl ((Finset.mem_filter.1 hp).2.trans (Finset.mem_filter.1 hq).2.symm))))
      d h1 h9
    have hp2 : p.2 = c := (Finset.mem_filter.1 hp).2
    refine ⟨p.1, by rw [← hp2]; exact hfp, ?_⟩
    intro r hrr
    have := huniq (r, c) ⟨Finset.mem_filter.2 ⟨Finset.mem_univ _, rfl⟩, hrr⟩
    exact congrArg Prod.fst this
  · intro br bc
    obtain ⟨p, ⟨hp, hfp⟩, huniq⟩ := unit_exactly_once _ (boxSet_card br bc)
      (fun p => s p.1 p.2) (fun p _ => hr p.1 p.2)
      (fun p hp q hq hne => hd p.1 p.2 q.1 q.2 hne
        (Or.inr (Or.inr ⟨(Finset.mem_filter.1 hp).2.1.trans (Finset.mem_filter.1 hq).2.1.symm,
          (Finset.mem_filter.1 hp).2.2.trans (Finset.mem_filter.1 hq).2.2.symm⟩)))
      d h1 h9
    refine ⟨p, ⟨(Finset.mem_filter.1 hp).2, hfp⟩, ?_⟩
    rintro q ⟨hq, hfq⟩
    exact huniq q ⟨Finset.mem_filter.2 ⟨Finset.mem_univ _, hq⟩, hfq⟩

/-- On a well-formed input, a successful search leaves a grid with all cells in 1..9 whose
units have no repeated value. -/
theorem wellFormed_result (b out : Board) (hwf : WellFormed b)
    (hag : Agrees b out) (hfs : FilledSafely b out) :
    (∀ r c, 1 ≤ out r c ∧ out r c ≤ 9) ∧
    (∀ r c r1 c1, (r, c) ≠ (r1, c1) → sameUnit r c r1 c1 → out r c ≠ out r1 c1) := by
  obtain ⟨hrange, hcons⟩ := hwf
  constructor
  · intro r c
    by_cases hz : b r c = 0
    · exact (hfs r c hz).1
    · rw [hag r c hz]
      have := hrange r c
      omega
  · intro r c r1 c1 hne hu
    by_cases hz : b r c = 0
    · exact fun e => (hfs r c hz).2 r1 c1 (fun e1 => hne e1.symm) hu e.symm
    · by_cases hz1 : b r1 c1 = 0
      · exact (hfs r1 c1 hz1).2 r c hne (sameUnit_symm hu)
      · rw [hag r c hz, hag r1 c1 hz1]
        exact hcons r c r1 c1 hne hu hz


/-! ## Completeness of the search -/

/-- A board that has a valid completion is well-formed. -/
theorem completion_wellFormed (b s : Board) (hs : IsCompletion b s) : WellFormed b := by
  obtain ⟨hr, hv, hag⟩ := hs
  constructor
  · intro r c
    by_cases hz : b r c = 0
    · rw [hz]; decide
    · rw [← hag r c hz]
      have := hr r c
      omega
  · intro r c r1 c1 hne hu hz heq
    have hz1 : b r1 c1 ≠ 0 := fun e => hz (heq.trans e)
    exact valid_distinct s hr hv r c r1 c1 hne hu
      ((hag r c hz).trans (heq.trans (hag r1 c1 hz1).symm))

/-- The digit a completion holds at an empty cell is safe to place there. -/
theorem completion_safe (b s : Board) (hs : IsCompletion b s) (row col : Fin 9)
    (h0 : b row col = 0) : isSafe b row col (s row col) = true := by
  obtain ⟨hr, hv, hag⟩ := hs
  rw [isSafe_iff]
  intro r c hu heq
  have hnz : b r c ≠ 0 := by
    have := hr row col
    omega
  have hne : (row, col) ≠ (r, c) := by
    intro e
    have h1 : row = r := congrArg Prod.fst e
    have h2 : col = c := congrArg Prod.snd e
    subst h1; subst h2
    exact hnz h0
  exact valid_distinct s hr hv row col r c hne hu ((hag r c hnz).trans heq).symm

/-- Placing at an empty cell the digit of a completion keeps that completion. -/
theorem completion_set (b s : Board) (hs : IsCompletion b s) (row col : Fin 9) :
    IsCompletion (b.set row col (s row col)) s := by
  obtain ⟨hr, hv, hag⟩ := hs
  refine ⟨hr, hv, ?_⟩
  intro r c hrc
  by_cases h : (r, c) = (row, col)
  · have h1 : r = row := congrArg Prod.fst h
    have h2 : c = col := congrArg Prod.snd h
    subst h1; subst h2
    rw [set_same]
  · rw [set_other b row col _ r c h] at hrc ⊢
    exact hag r c hrc

theorem tryDigits_complete (solve : Board → Option (Bool × Board)) (row col : Fin 9) (n : Nat)
    (s : Board)
    (hres : ∀ x y, solve x = some (false, y) → y = x)
    (htot : ∀ x, zeros x < n → ∃ res, solve x = some res)
    (hcomp : ∀ x, zeros x < n → IsCompletion x s → ∃ y, solve x = some (true, y))
    (ds : List Int) (hds : ∀ d ∈ ds, (1 : Int) ≤ d ∧ d ≤ 9)
    (b : Board) (h0 : b row col = 0) (hz : zeros b < n + 1) (hs : IsCompletion b s)
    (hmem : s row col ∈ ds) :
    ∃ y, tryDigits solve row col ds b = some (true, y) := by
  induction ds with
  | nil => exact absurd hmem (List.not_mem_nil _)
  | cons num rest ih =>
    have ih' := ih (fun d hd => hds d (List.mem_cons_of_mem _ hd))
    have hnum := hds num (List.mem_cons_self _ _)
    have hzs := zeros_set b row col num h0 (by omega)
    rw [tryDigits_cons solve row col hres num rest b h0]
    by_cases hnd : num = s row col
    · subst hnd
      rw [if_pos (completion_safe b s hs row col h0)]
      obtain ⟨y, hy⟩ := hcomp _ (by omega) (completion_set b s hs row col)
      rw [hy]
      exact ⟨y, rfl⟩
    · have hmem' : s row col ∈ rest := by
        rcases List.mem_cons.1 hmem with h | h
        · exact absurd h.symm hnd
        · exact h
      split
      · obtain ⟨res, hsol⟩ := htot (b.set row col num) (by omega)
        rw [hsol]
        obtain ⟨v, y⟩ := res
        cases v
        · exact ih' hmem'
        · exact ⟨y, rfl⟩
      · exact ih' hmem'

/-- With enough fuel the solver returns true on every board that has a valid completion. -/
theorem solveFuel_complete (s : Board) (fuel : Nat) :
    ∀ b, zeros b < fuel → IsCompletion b s → ∃ y, solveFuel fuel b = some (true, y) := by
  induction fuel with
  | zero => intro b h; exact absurd h (Nat.not_lt_zero _)
  | succ n ih =>
    intro b hz hs
    rw [solveFuel]
    split
    · exact ⟨b, rfl⟩
    · rename_i row col hfind
      exact tryDigits_complete (solveFuel n) row col n s (solveFuel_false n)
        (solveFuel_total n) ih digits digits_range b
        (findUnassignedLocation_some b row col hfind).1 hz hs
        (mem_digits _ (hs.1 row col).1 (hs.1 row col).2)

theorem solveSudoku_complete (b s : Board) (hs : IsCompletion b s) :
    ∃ y, solveSudoku b = some (true, y) :=
  solveFuel_complete s 82 b (Nat.lt_succ_of_le (zeros_le b)) hs

/-- On a well-formed input a successful search leaves a complete valid grid in 1..9. -/
theorem solveSudoku_sound (b out : Board) (hwf : WellFormed b)
    (h : solveSudoku b = some (true, out)) :
    (∀ r c, 1 ≤ out r c ∧ out r c ≤ 9) ∧ ValidGrid out ∧ Agrees b out ∧ NoZero out := by
  obtain ⟨hag, hnz, hfs⟩ := solveFuel_true 82 b out h
  obtain ⟨hr, hd⟩ := wellFormed_result b out hwf hag hfs
  exact ⟨hr, distinct_valid out hr hd, hag, hnz⟩

/-- A board without empty cell is returned unchanged with result true. -/
theorem solveSudoku_full (b : Board) (hnz : NoZero b) : solveSudoku b = some (true, b) := by
  unfold solveSudoku
  rw [solveFuel, (findUnassignedLocation_none b).2 hnz]

/-! ## The concrete boards -/

theorem solvedGrid_range : ∀ r c, 1 ≤ solvedGrid r c ∧ solvedGrid r c ≤ 9 := by
  decide

theorem solvedGrid_distinct :
    ∀ r c r1 c1, (r, c) ≠ (r1, c1) → sameUnit r c r1 c1 → solvedGrid r c ≠ solvedGrid r1 c1 := by
  decide

theorem solvedGrid_valid : ValidGrid solvedGrid :=
  distinct_valid solvedGrid solvedGrid_range solvedGrid_distinct


theorem puzzleA_completion : IsCompletion puzzleA solvedGrid :=
  ⟨solvedGrid_range, solvedGrid_valid, by unfold Agrees; decide⟩

theorem puzzleA_run : solveSudoku puzzleA = some (true, puzzleAOut) :=
  rfl

theorem puzzleB_completion : IsCompletion puzzleB solvedGrid :=
  ⟨solvedGrid_range, solvedGrid_valid, by unfold Agrees; decide⟩

theorem puzzleB_run : solveSudoku puzzleB = some (true, puzzleBOut) :=
  rfl

theorem deadEnd_run : solveSudoku deadEnd = some (false, deadEndOut) :=
  rfl

theorem twoFives_run : solveSudoku twoFives = some (true, twoFives.set 8 8 9) :=
  rfl

theorem allFives_run : solveSudoku allFives = some (true, allFives) :=
  rfl

theorem twoFives_conflict : Conflict twoFives 0 0 0 1 5 := by
  unfold Conflict; decide

/-- In a completion, an empty cell whose row is otherwise given and lacks `d` holds `d`. -/
theorem completion_cell (b t : Board) (ht : IsCompletion b t) (row col : Fin 9) (d : Int)
    (h1 : 1 ≤ d) (h9 : d ≤ 9) (hrow : ∀ c, c ≠ col → b row c ≠ 0 ∧ b row c ≠ d) :
    t row col = d := by
  obtain ⟨c, hc, _⟩ := (ht.2.1 d h1 h9).1 row
  by_cases h : c = col
  · rw [← h]; exact hc
  · have := ht.2.2 row c (hrow c h).1
    exact absurd (this.symm.trans hc) (hrow c h).2

theorem puzzleA_unique (t : Board) (ht : IsCompletion puzzleA t) : t = solvedGrid := by
  have h00 : t 0 0 = 5 := completion_cell puzzleA t ht 0 0 5 (by decide) (by decide) (by decide)
  have h44 : t 4 4 = 5 := completion_cell puzzleA t ht 4 4 5 (by decide) (by decide) (by decide)
  have hrest : ∀ r c : Fin 9, (r, c) ≠ (0, 0) → (r, c) ≠ (4, 4) →
      puzzleA r c ≠ 0 ∧ puzzleA r c = solvedGrid r c := by decide
  funext r c
  by_cases e0 : (r, c) = (0, 0)
  · have e1 : r = 0 := congrArg Prod.fst e0
    have e2 : c = 0 := congrArg Prod.snd e0
    subst e1; subst e2
    exact h00
  · by_cases e4 : (r, c) = (4, 4)
    · have e1 : r = 4 := congrArg Prod.fst e4
      have e2 : c = 4 := congrArg Prod.snd e4
      subst e1; subst e2
      exact h44
    · rw [ht.2.2 r c (hrest r c e0 e4).1]
      exact (hrest r c e0 e4).2

/-! ## The claims -/

/-- C1 as stated fails: on the full board of 5s the solver returns true and the board, in
which no row contains the digit 1, is not a valid grid. -/
theorem validity_without_precondition_fails :
    ¬ (∀ b out : Board, solveSudoku b = some (true, out) → ValidGrid out) := by
  intro h
  obtain ⟨c, hc, _⟩ := (h allFives allFives allFives_run 1 (by decide) (by decide)).1 0
  exact absurd hc (by unfold allFives; decide)

/-- C1 (amended): for every well-formed input board (cells in 0..9, no non-zero value twice
in a row, column or box) on which `solveSudoku` returns true, every row, every column and
every aligned 3x3 box of the resulting board contains each digit 1..9 exactly once. -/
theorem validity_on_wellFormed (b out : Board) (hwf : WellFormed b)
    (h : solveSudoku b = some (true, out)) : ValidGrid out :=
  (solveSudoku_sound b out hwf h).2.1

theorem validity_on_wellFormed_witness :
    WellFormed puzzleA ∧ solveSudoku puzzleA = some (true, puzzleAOut) ∧ ValidGrid puzzleAOut :=
  ⟨completion_wellFormed puzzleA solvedGrid puzzleA_completion, puzzleA_run,
    validity_on_wellFormed puzzleA puzzleAOut
      (completion_wellFormed puzzleA solvedGrid puzzleA_completion) puzzleA_run⟩

/-- C2: for every board that has a valid completion, `solveSudoku` returns true (with some
resulting board) and hence does not return false; so a false result means that no valid
completion exists. -/
theorem completeness (b s : Board) (hs : IsCompletion b s) :
    (∃ out, solveSudoku b = some (true, out)) ∧ ∀ out, solveSudoku b ≠ some (false, out) := by
  obtain ⟨y, hy⟩ := solveSudoku_complete b s hs
  refine ⟨⟨y, hy⟩, fun out h => ?_⟩
  rw [hy] at h
  simp at h

theorem completeness_witness :
    IsCompletion puzzleB solvedGrid ∧
      ((∃ out, solveSudoku puzzleB = some (true, out)) ∧
        ∀ out, solveSudoku puzzleB ≠ some (false, out)) :=
  ⟨puzzleB_completion, completeness puzzleB solvedGrid puzzleB_completion⟩

/-- C3: for every well-formed input board (cells in 0..9, no non-zero value twice in a row,
column or box), if `solveSudoku` returns true then the resulting board has no zero cell,
every row, column and box of it is a permutation of 1..9, and it agrees with the input on
every cell that was non-zero in the input. -/
theorem soundness_on_wellFormed (b out : Board) (hwf : WellFormed b)
    (h : solveSudoku b = some (true, out)) :
    NoZero out ∧ ValidGrid out ∧ ∀ r c, b r c ≠ 0 → out r c = b r c :=
  ⟨(solveSudoku_sound b out hwf h).2.2.2, (solveSudoku_sound b out hwf h).2.1,
    (solveSudoku_sound b out hwf h).2.2.1⟩

theorem soundness_on_wellFormed_witness :
    WellFormed puzzleB ∧ solveSudoku puzzleB = some (true, puzzleBOut) ∧
      (NoZero puzzleBOut ∧ ValidGrid puzzleBOut ∧
        ∀ r c, puzzleB r c ≠ 0 → puzzleBOut r c = puzzleB r c) :=
  ⟨completion_wellFormed puzzleB solvedGrid puzzleB_completion, puzzleB_run,
    soundness_on_wellFormed puzzleB puzzleBOut
      (completion_wellFormed puzzleB solvedGrid puzzleB_completion) puzzleB_run⟩

/-- C4: for every input board, when `solveSudoku` returns true, every cell that was non-zero
in the input holds the same value in the output board. -/
theorem conservation (b out : Board) (h : solveSudoku b = some (true, out)) :
    ∀ r c, b r c ≠ 0 → out r c = b r c :=
  (solveFuel_true 82 b out h).1

theorem conservation_witness :
    solveSudoku twoFives = some (true, twoFives.set 8 8 9) ∧
      ∀ r c, twoFives r c ≠ 0 → (twoFives.set 8 8 9) r c = twoFives r c :=
  ⟨twoFives_run, conservation twoFives (twoFives.set 8 8 9) twoFives_run⟩

/-- C5: for every input board, when `solveSudoku` returns false, the board after the call
equals the board before the call on all 81 cells. -/
theorem restoration_on_failure (b out : Board) (h : solveSudoku b = some (false, out)) :
    out = b :=
  solveFuel_false 82 b out h

theorem restoration_on_failure_witness :
    solveSudoku deadEnd = some (false, deadEndOut) ∧ deadEndOut = deadEnd :=
  ⟨deadEnd_run, restoration_on_failure deadEnd deadEndOut deadEnd_run⟩


/-- C6 as stated fails: the board `twoFives` has the digit 5 in the two cells (0,0) and (0,1)
of row 0, and the solver fills its one empty cell and returns true. -/
theorem conflict_not_detected :
    ¬ (∀ (b : Board) (r c r1 c1 : Fin 9) (d : Int), Conflict b r c r1 c1 d →
        ∃ out, solveSudoku b = some (false, out)) := by
  intro h
  obtain ⟨out, hout⟩ := h twoFives 0 0 0 1 5 twoFives_conflict
  rw [twoFives_run] at hout
  simp at hout

/-- C6 (amended): for every board in which some digit 1..9 occurs in two different cells of
the same row, column or box, whatever `solveSudoku` returns, both cells still hold that digit
in the resulting board, so the resulting board is never a valid grid. -/
theorem conflict_persists (b : Board) (r c r1 c1 : Fin 9) (d : Int)
    (hc : Conflict b r c r1 c1 d) (res : Bool) (out : Board)
    (h : solveSudoku b = some (res, out)) :
    Conflict out r c r1 c1 d ∧ ¬ ValidGrid out := by
  have hout : Conflict out r c r1 c1 d := by
    obtain ⟨h1, h9, hne, hu, e1, e2⟩ := hc
    cases res
    · rw [solveFuel_false 82 b out h]
      exact ⟨h1, h9, hne, hu, e1, e2⟩
    · have hag := (solveFuel_true 82 b out h).1
      refine ⟨h1, h9, hne, hu, ?_, ?_⟩
      · rw [hag r c (by rw [e1]; omega), e1]
      · rw [hag r1 c1 (by rw [e2]; omega), e2]
  exact ⟨hout, fun hv => valid_no_conflict out hv r c r1 c1 d hout⟩

theorem conflict_persists_witness :
    Conflict twoFives 0 0 0 1 5 ∧ solveSudoku twoFives = some (true, twoFives.set 8 8 9) ∧
      (Conflict (twoFives.set 8 8 9) 0 0 0 1 5 ∧ ¬ ValidGrid (twoFives.set 8 8 9)) :=
  ⟨twoFives_conflict, twoFives_run,
    conflict_persists twoFives 0 0 0 1 5 twoFives_conflict true (twoFives.set 8 8 9) twoFives_run⟩

/-- C7: for every input board that has exactly one valid completion, `solveSudoku` returns
true and the resulting board is that completion. -/
theorem unique_solution_found (b s : Board) (hs : IsCompletion b s)
    (huniq : ∀ t, IsCompletion b t → t = s) : solveSudoku b = some (true, s) := by
  obtain ⟨y, hy⟩ := solveSudoku_complete b s hs
  obtain ⟨hr, hv, hag, _⟩ := solveSudoku_sound b y (completion_wellFormed b s hs) hy
  rw [hy, huniq y ⟨hr, hv, hag⟩]

theorem unique_solution_found_witness :
    IsCompletion puzzleA solvedGrid ∧ (∀ t, IsCompletion puzzleA t → t = solvedGrid) ∧
      solveSudoku puzzleA = some (true, solvedGrid) :=
  ⟨puzzleA_completion, puzzleA_unique,
    unique_solution_found puzzleA solvedGrid puzzleA_completion puzzleA_unique⟩

/-- C8: on every board that is fully and validly filled (no zero cell, every row, column and
box a permutation of 1..9) `solveSudoku` returns true and leaves the board unchanged; and
running `solveSudoku` again on the output of any successful solve returns true and changes
nothing. -/
theorem idempotent_on_complete (b : Board) :
    (NoZero b → ValidGrid b → solveSudoku b = some (true, b)) ∧
    (∀ out, solveSudoku b = some (true, out) → solveSudoku out = some (true, out)) :=
  ⟨fun hnz _ => solveSudoku_full b hnz,
    fun out h => solveSudoku_full out (solveFuel_true 82 b out h).2.1⟩

theorem idempotent_on_complete_witness :
    (NoZero solvedGrid ∧ ValidGrid solvedGrid ∧ solveSudoku solvedGrid = some (true, solvedGrid)) ∧
    (solveSudoku puzzleB = some (true, puzzleBOut) ∧
      solveSudoku puzzleBOut = some (true, puzzleBOut)) :=
  ⟨⟨fun r c => by have := solvedGrid_range r c; omega, solvedGrid_valid,
      (idempotent_on_complete solvedGrid).1
        (fun r c => by have := solvedGrid_range r c; omega) solvedGrid_valid⟩,
    ⟨puzzleB_run, (idempotent_on_complete puzzleB).2 puzzleBOut puzzleB_run⟩⟩

/-- C9 as stated fails: on the board whose only non-zero cell is a 5 at (0,0), the digit 5
occurs in no cell other than (0,0), yet `isSafe` at (0,0) for 5 is false, because the scans
include the cell itself. -/
theorem isSafe_counts_own_cell :
    ¬ (∀ (b : Board) (row col : Fin 9) (d : Int), 1 ≤ d → d ≤ 9 →
        (isSafe b row col d = true ↔ NowhereElse b row col d)) := by
  intro h
  have hne : NowhereElse lone5 0 0 5 := by
    unfold NowhereElse; decide
  have := (h lone5 0 0 5 (by decide) (by decide)).2 hne
  exact absurd this (by decide)

/-- C9 (amended): for every board, every row and col in 0..8 and every value `d` (in
particular every digit 1..9), provided cell (row,col) does not itself hold `d`,
`isSafe` returns true if and only if `d` occurs in no cell other than (row,col) of row `row`,
of column `col` and of the 3x3 box containing (row,col). -/
theorem isSafe_spec (b : Board) (row col : Fin 9) (d : Int) (hcell : b row col ≠ d) :
    isSafe b row col d = true ↔ NowhereElse b row col d := by
  rw [isSafe_iff]
  constructor
  · intro h
    refine ⟨fun c _ => h row c (Or.inl rfl), fun r _ => h r col (Or.inr (Or.inl rfl)), ?_⟩
    intro r c _ h1 h2
    exact h r c (Or.inr (Or.inr ⟨h1.symm, h2.symm⟩))
  · rintro ⟨hrow, hcol, hbox⟩ r c hu
    by_cases e : (r, c) = (row, col)
    · have e1 : r = row := congrArg Prod.fst e
      have e2 : c = col := congrArg Prod.snd e
      subst e1; subst e2
      exact hcell
    · rcases hu with hu | hu | hu
      · subst hu
        exact hrow c (fun ec => e (by rw [ec]))
      · subst hu
        exact hcol r (fun er => e (by rw [er]))
      · exact hbox r c e hu.1.symm hu.2.symm

theorem isSafe_spec_witness :
    puzzleA 0 0 ≠ 5 ∧ (isSafe puzzleA 0 0 5 = true ↔ NowhereElse puzzleA 0 0 5) :=
  ⟨by decide, isSafe_spec puzzleA 0 0 5 (by decide)⟩

/-- C10: `findUnassignedLocation` reports none if and only if every one of the 81 cells is
non-zero; otherwise it returns a position (row,col) in the grid with `board[row][col] = 0`
such that every cell before it in row-major order (smaller row, or same row and smaller
column) is non-zero. -/
theorem findUnassignedLocation_spec (b : Board) :
    (findUnassignedLocation b = none ↔ ∀ r c, b r c ≠ 0) ∧
    (¬ (∀ r c, b r c ≠ 0) →
      ∃ row col, findUnassignedLocation b = some (row, col) ∧
        (row.val ≤ 8 ∧ col.val ≤ 8) ∧ b row col = 0 ∧
        ∀ r c, (r < row ∨ (r = row ∧ c < col)) → b r c ≠ 0) := by
  refine ⟨findUnassignedLocation_none b, fun hnot => ?_⟩
  cases hfind : findUnassignedLocation b with
  | none => exact absurd ((findUnassignedLocation_none b).1 hfind) hnot
  | some p =>
    obtain ⟨row, col⟩ := p
    exact ⟨row, col, rfl, ⟨Nat.le_of_lt_succ row.isLt, Nat.le_of_lt_succ col.isLt⟩,
      findUnassignedLocation_some b row col hfind⟩

theorem findUnassignedLocation_spec_witness :
    ¬ (∀ r c, puzzleB r c ≠ 0) ∧
      ∃ row col, findUnassignedLocation puzzleB = some (row, col) ∧
        (row.val ≤ 8 ∧ col.val ≤ 8) ∧ puzzleB row col = 0 ∧
        ∀ r c, (r < row ∨ (r = row ∧ c < col)) → puzzleB r c ≠ 0 :=
  ⟨fun h => h 0 0 (by decide),
    (findUnassignedLocation_spec puzzleB).2 (fun h => h 0 0 (by decide))⟩


/-! ## Independence of the fuel and the recursion equation -/

/-- The digit loop gives the same result for two recursive calls that agree on the boards
with one zero cell fewer than the board of the loop. -/
theorem tryDigits_congr (f g : Board → Option (Bool × Board)) (row col : Fin 9)
    (hres : ∀ x y, f x = some (false, y) → y = x)
    (b : Board) (h0 : b row col = 0)
    (hfg : ∀ x, zeros x + 1 = zeros b → f x = g x)
    (ds : List Int) (hds : ∀ d ∈ ds, (1 : Int) ≤ d ∧ d ≤ 9) :
    tryDigits f row col ds b = tryDigits g row col ds b := by
  have hresg : ∀ num, (1 : Int) ≤ num ∧ num ≤ 9 → ∀ y,
      g (b.set row col num) = some (false, y) → y = b.set row col num := by
    intro num hnum y hy
    rw [← hfg _ (zeros_set b row col num h0 (by omega))] at hy
    exact hres _ _ hy
  induction ds with
  | nil => rfl
  | cons num rest ih =>
    have ih' := ih (fun d hd => hds d (List.mem_cons_of_mem _ hd))
    have hnum := hds num (List.mem_cons_self _ _)
    rw [tryDigits_cons f row col hres num rest b h0, tryDigits]
    split
    · rw [← hfg _ (zeros_set b row col num h0 (by omega))]
      cases hsol : f (b.set row col num) with
      | none => rfl
      | some res =>
        obtain ⟨v, y⟩ := res
        cases v
        · have hy := hres _ _ hsol
          subst hy
          simp only [set_set_zero b row col num h0]
          exact ih'
        · rfl
    · exact ih'

/-- Any two amounts of fuel above the number of zero cells give the same result. -/
theorem solveFuel_indep (n : Nat) :
    ∀ m b, zeros b < n → zeros b < m → solveFuel n b = solveFuel m b := by
  induction n with
  | zero => intro m b h; exact absurd h (Nat.not_lt_zero _)
  | succ n ih =>
    intro m b hn hm
    cases m with
    | zero => exact absurd hm (Nat.not_lt_zero _)
    | succ m =>
      rw [solveFuel, solveFuel]
      split
      · rfl
      · rename_i row col hfind
        exact tryDigits_congr (solveFuel n) (solveFuel m) row col (solveFuel_false n) b
          (findUnassignedLocation_some b row col hfind).1
          (fun x hx => ih m x (by omega) (by omega)) digits digits_range

/-- The recursion of the source: `solveSudoku` returns true when no cell is unassigned and
otherwise runs the digit loop with `solveSudoku` itself as the recursive call. -/
theorem solveSudoku_unfold (b : Board) :
    solveSudoku b =
      match findUnassignedLocation b with
      | none => some (true, b)
      | some (row, col) => tryDigits solveSudoku row col digits b := by
  show solveFuel 82 b = _
  rw [solveFuel]
  split
  · rfl
  · rename_i row col hfind
    exact tryDigits_congr (solveFuel 81) solveSudoku row col (solveFuel_false 81) b
      (findUnassignedLocation_some b row col hfind).1
      (fun x hx => solveFuel_indep 81 82 x (by have := zeros_le b; omega)
        (by have := zeros_le b; omega)) digits digits_range

/-- Every recursive call of the digit loop is on the board of the loop with one safe digit
placed in the chosen cell. -/
theorem mem_tryDigitsCalls (solve : Board → Option (Bool × Board)) (row col : Fin 9)
    (hres : ∀ x y, solve x = some (false, y) → y = x)
    (b : Board) (h0 : b row col = 0) (x : Board) (ds : List Int)
    (h : x ∈ tryDigitsCalls solve row col ds b) :
    ∃ num ∈ ds, isSafe b row col num = true ∧ x = b.set row col num := by
  induction ds with
  | nil => simp [tryDigitsCalls] at h
  | cons num rest ih =>
    rw [tryDigitsCalls] at h
    split at h
    · rename_i hsafe
      rcases List.mem_cons.1 h with h | h
      · exact ⟨num, List.mem_cons_self _ _, hsafe, h⟩
      · split at h
        · rename_i b1 hsol
          have hb1 := hres _ _ hsol
          subst hb1
          rw [set_set_zero b row col num h0] at h
          obtain ⟨d, hd, hd2⟩ := ih h
          exact ⟨d, List.mem_cons_of_mem _ hd, hd2⟩
        · exact absurd h (List.not_mem_nil _)
    · obtain ⟨d, hd, hd2⟩ := ih h
      exact ⟨d, List.mem_cons_of_mem _ hd, hd2⟩

/-- Every recursive call of an invocation on `b` is on `b` with a digit 1..9 that is safe
there placed in the first empty cell of `b`. -/
theorem mem_recursiveCalls (b x : Board) (h : x ∈ recursiveCalls b) :
    ∃ row col num, findUnassignedLocation b = some (row, col) ∧ b row col = 0 ∧
      ((1 : Int) ≤ num ∧ num ≤ 9) ∧ isSafe b row col num = true ∧ x = b.set row col num := by
  unfold recursiveCalls at h
  split at h
  · exact absurd h (List.not_mem_nil _)
  · rename_i row col hfind
    have h0 := (findUnassignedLocation_some b row col hfind).1
    obtain ⟨num, hnum, hsafe, hx⟩ :=
      mem_tryDigitsCalls solveSudoku row col (solveFuel_false 82) b h0 x digits h
    exact ⟨row, col, num, hfind, h0, digits_range num hnum, hsafe, hx⟩

theorem recursiveCalls_zeros (b x : Board) (h : x ∈ recursiveCalls b) :
    zeros x + 1 = zeros b := by
  obtain ⟨row, col, num, _, h0, hnum, _, rfl⟩ := mem_recursiveCalls b x h
  exact zeros_set b row col num h0 (by omega)


/-! ## Consistency along the search -/

/-- Placing a value that `isSafe` accepts keeps the board free of repeated values. -/
theorem consistent_set_safe (b : Board) (hc : Consistent b) (row col : Fin 9) (d : Int)
    (hsafe : isSafe b row col d = true) : Consistent (b.set row col d) := by
  have hs := (isSafe_iff b row col d).1 hsafe
  intro r c r1 c1 hne hu hnz
  by_cases e : (r, c) = (row, col)
  · have e1 : r = row := congrArg Prod.fst e
    have e2 : c = col := congrArg Prod.snd e
    subst e1; subst e2
    have hne1 : (r1, c1) ≠ (r, c) := fun h => hne h.symm
    rw [set_same, set_other b r c d r1 c1 hne1]
    exact fun h => hs r1 c1 hu h.symm
  · rw [set_other b row col d r c e] at hnz ⊢
    by_cases e' : (r1, c1) = (row, col)
    · have e1 : r1 = row := congrArg Prod.fst e'
      have e2 : c1 = col := congrArg Prod.snd e'
      subst e1; subst e2
      rw [set_same]
      exact hs r c (sameUnit_symm hu)
    · rw [set_other b row col d r1 c1 e']
      exact hc r c r1 c1 hne hu hnz

/-- Emptying a cell keeps the board free of repeated values. -/
theorem consistent_set_zero (b : Board) (hc : Consistent b) (row col : Fin 9) :
    Consistent (b.set row col 0) := by
  intro r c r1 c1 hne hu hnz
  by_cases e : (r, c) = (row, col)
  · have e1 : r = row := congrArg Prod.fst e
    have e2 : c = col := congrArg Prod.snd e
    subst e1; subst e2
    rw [set_same] at hnz
    exact absurd rfl hnz
  · rw [set_other b row col 0 r c e] at hnz ⊢
    by_cases e' : (r1, c1) = (row, col)
    · have e1 : r1 = row := congrArg Prod.fst e'
      have e2 : c1 = col := congrArg Prod.snd e'
      subst e1; subst e2
      rw [set_same]
      exact hnz
    · rw [set_other b row col 0 r1 c1 e']
      exact hc r c r1 c1 hne hu hnz

theorem callStep_consistent (b x : Board) (hc : Consistent b) (h : CallStep b x) :
    Consistent x := by
  obtain ⟨row, col, num, _, _, _, hsafe, rfl⟩ := mem_recursiveCalls b x h
  exact consistent_set_safe b hc row col num hsafe

/-! ## The first solution in row-major lexicographic order -/

theorem digits_sorted : digits.Pairwise (fun a b => a < b) := by
  decide

theorem tryDigits_lex (solve : Board → Option (Bool × Board)) (row col : Fin 9) (n : Nat)
    (s : Board)
    (hres : ∀ x y, solve x = some (false, y) → y = x)
    (htot : ∀ x, zeros x < n → ∃ res, solve x = some res)
    (hpost : ∀ x y, solve x = some (true, y) → Agrees x y)
    (hlex : ∀ x, zeros x < n → IsCompletion x s → ∃ t, solve x = some (true, t) ∧ LexLE t s)
    (b : Board) (h0 : b row col = 0) (hz : zeros b < n + 1) (hs : IsCompletion b s)
    (hbefore : ∀ r c, (r < row ∨ (r = row ∧ c < col)) → b r c ≠ 0)
    (ds : List Int) (hds : ∀ d ∈ ds, (1 : Int) ≤ d ∧ d ≤ 9)
    (hsorted : ds.Pairwise (fun a b => a < b)) (hmem : s row col ∈ ds) :
    ∃ t, tryDigits solve row col ds b = some (true, t) ∧ LexLE t s := by
  induction ds with
  | nil => exact absurd hmem (List.not_mem_nil _)
  | cons num rest ih =>
    rw [List.pairwise_cons] at hsorted
    have ih' := ih (fun d hd => hds d (List.mem_cons_of_mem _ hd)) hsorted.2
    have hnum := hds num (List.mem_cons_self _ _)
    have hzs := zeros_set b row col num h0 (by omega)
    rw [tryDigits_cons solve row col hres num rest b h0]
    by_cases hnd : num = s row col
    · subst hnd
      rw [if_pos (completion_safe b s hs row col h0)]
      obtain ⟨t, ht, hle⟩ := hlex _ (by omega) (completion_set b s hs row col)
      rw [ht]
      exact ⟨t, rfl, hle⟩
    · have hmem' : s row col ∈ rest := by
        rcases List.mem_cons.1 hmem with h | h
        · exact absurd h.symm hnd
        · exact h
      have hlt : num < s row col := hsorted.1 _ hmem'
      split
      · obtain ⟨res, hsol⟩ := htot (b.set row col num) (by omega)
        rw [hsol]
        obtain ⟨v, y⟩ := res
        cases v
        · exact ih' hmem'
        · refine ⟨y, rfl, Or.inr ⟨row, col, ?_, ?_⟩⟩
          · have := hpost _ _ hsol row col (by rw [set_same]; omega)
            rw [set_same] at this
            rw [this]
            exact hlt
          · intro r1 c1 hb
            have hnz := hbefore r1 c1 hb
            have hne : (r1, c1) ≠ (row, col) := by
              intro e
              have e1 : r1 = row := congrArg Prod.fst e
              have e2 : c1 = col := congrArg Prod.snd e
              subst e1; subst e2
              exact hnz h0
            have := hpost _ _ hsol r1 c1 (by rw [set_other b row col num r1 c1 hne]; exact hnz)
            rw [set_other b row col num r1 c1 hne] at this
            rw [this, hs.2.2 r1 c1 hnz]
      · exact ih' hmem'

theorem solveFuel_lex (s : Board) (fuel : Nat) :
    ∀ b, zeros b < fuel → IsCompletion b s →
      ∃ t, solveFuel fuel b = some (true, t) ∧ LexLE t s := by
  induction fuel with
  | zero => intro b h; exact absurd h (Nat.not_lt_zero _)
  | succ n ih =>
    intro b hz hs
    rw [solveFuel]
    split
    · rename_i hfind
      have hnz := (findUnassignedLocation_none b).1 hfind
      refine ⟨b, rfl, Or.inl ?_⟩
      funext r c
      exact (hs.2.2 r c (hnz r c)).symm
    · rename_i row col hfind
      have hf := findUnassignedLocation_some b row col hfind
      exact tryDigits_lex (solveFuel n) row col n s (solveFuel_false n) (solveFuel_total n)
        (fun x y h => (solveFuel_true n x y h).1) ih b hf.1 hz hs hf.2 digits digits_range
        digits_sorted (mem_digits _ (hs.1 row col).1 (hs.1 row col).2)

theorem usedInBox_boxScan (b : Board) (boxStartRow boxStartCol : Fin 7) (num : Int) :
    usedInBox b boxStartRow boxStartCol num =
      (boxScan boxStartRow boxStartCol).any (fun p => b p.1 p.2 == num) := by
  simp [usedInBox, boxScan, idx3, Bool.or_assoc]

theorem mem_boxScan (row col : Fin 9) (p : Fin 9 × Fin 9) :
    p ∈ boxScan ⟨row.val - row.val % 3, by omega⟩ ⟨col.val - col.val % 3, by omega⟩ ↔
      (p.1.val / 3 = row.val / 3 ∧ p.2.val / 3 = col.val / 3) := by
  obtain ⟨r, c⟩ := p
  unfold boxScan
  simp only [List.mem_flatMap, List.mem_map, Prod.mk.injEq, Fin.ext_iff]
  constructor
  · rintro ⟨i, _, j, _, h1, h2⟩
    constructor <;> omega
  · rintro ⟨h1, h2⟩
    exact ⟨⟨r.val % 3, by omega⟩, mem_idx3 _, ⟨c.val % 3, by omega⟩, mem_idx3 _,
      by show row.val - row.val % 3 + r.val % 3 = r.val; omega,
      by show col.val - col.val % 3 + c.val % 3 = c.val; omega⟩


theorem emptyBoard_completion : IsCompletion emptyBoard solvedGrid :=
  ⟨solvedGrid_range, solvedGrid_valid, fun _ _ h => absurd rfl h⟩

theorem puzzleA_call : CallStep puzzleA (puzzleA.set 0 0 5) :=
  List.Mem.head _

theorem puzzleA_call2 : CallStep (puzzleA.set 0 0 5) puzzleAOut :=
  List.Mem.head _

theorem puzzleB_call : CallStep puzzleB (puzzleB.set 0 0 3) :=
  List.Mem.head _

/-- Nested recursive calls below an invocation on `b` number at most the zero cells of `b`. -/
theorem chain_length_le (chain : List Board) :
    ∀ b, List.Chain CallStep b chain → chain.length ≤ zeros b := by
  induction chain with
  | nil => intro b _; exact Nat.zero_le _
  | cons x rest ih =>
    intro b h
    rw [List.chain_cons] at h
    have h1 := recursiveCalls_zeros b x h.1
    have h2 := ih x h.2
    simp only [List.length_cons]
    omega

/-! ## The claims, continued -/

/-- C11: on the board whose 81 cells are all 0, `solveSudoku` returns true and the resulting
board is a valid complete grid: no zero cell, and every row, column and aligned 3x3 box is a
permutation of 1..9. -/
theorem empty_board_solved :
    ∃ out, solveSudoku emptyBoard = some (true, out) ∧ NoZero out ∧ ValidGrid out := by
  obtain ⟨out, hout⟩ := solveSudoku_complete emptyBoard solvedGrid emptyBoard_completion
  obtain ⟨_, hv, _, hnz⟩ := solveSudoku_sound emptyBoard out
    (completion_wellFormed emptyBoard solvedGrid emptyBoard_completion) hout
  exact ⟨out, hout, hnz, hv⟩

/-- C12: `solveSudoku` returns (true or false, with a board) on every board, whatever its
entries; every recursive call is made on a board with strictly fewer zero cells than the
board the calling invocation received, and so the relation "is called recursively by" is
well-founded. -/
theorem termination :
    (∀ b, ∃ v out, solveSudoku b = some (v, out)) ∧
    (∀ b x, CallStep b x → zeros x < zeros b) ∧
    WellFounded (fun x b => CallStep b x) := by
  refine ⟨fun b => ?_, fun b x h => ?_, ?_⟩
  · obtain ⟨⟨v, out⟩, h⟩ := solveSudoku_total b
    exact ⟨v, out, h⟩
  · have := recursiveCalls_zeros b x h
    omega
  · refine Subrelation.wf ?_ (InvImage.wf zeros Nat.lt_wfRel.wf)
    intro x b h
    have := recursiveCalls_zeros b x h
    show zeros x < zeros b
    omega

theorem termination_witness :
    CallStep puzzleB (puzzleB.set 0 0 3) ∧ zeros (puzzleB.set 0 0 3) < zeros puzzleB :=
  ⟨puzzleB_call, termination.2.1 puzzleB (puzzleB.set 0 0 3) puzzleB_call⟩

/-- C13: for every board, row and col in 0..8 and every value `num`, `isSafe` is true if and
only if `num` equals none of the 9 cells of row `row`, none of the 9 cells of column `col`
and none of the 9 cells (r,c) with r/3 = row/3 and c/3 = col/3, the cell (row,col) included;
`usedInBox` tests exactly the cells of its scan, and the scan from origin
(row - row mod 3, col - col mod 3) consists exactly of the cells of the aligned box of
(row,col). -/
theorem isSafe_as_implemented (b : Board) (row col : Fin 9) (num : Int) :
    (isSafe b row col num = true ↔
      (∀ c, b row c ≠ num) ∧ (∀ r, b r col ≠ num) ∧
      (∀ r c : Fin 9, r.val / 3 = row.val / 3 → c.val / 3 = col.val / 3 → b r c ≠ num)) ∧
    (∀ o1 o2 : Fin 7,
      usedInBox b o1 o2 num = (boxScan o1 o2).any (fun p => b p.1 p.2 == num)) ∧
    (∀ p : Fin 9 × Fin 9,
      p ∈ boxScan ⟨row.val - row.val % 3, by omega⟩ ⟨col.val - col.val % 3, by omega⟩ ↔
        (p.1.val / 3 = row.val / 3 ∧ p.2.val / 3 = col.val / 3)) := by
  refine ⟨?_, fun o1 o2 => usedInBox_boxScan b o1 o2 num, mem_boxScan row col⟩
  rw [isSafe_iff]
  constructor
  · intro h
    exact ⟨fun c => h row c (Or.inl rfl), fun r => h r col (Or.inr (Or.inl rfl)),
      fun r c h1 h2 => h r c (Or.inr (Or.inr ⟨h1.symm, h2.symm⟩))⟩
  · rintro ⟨hrow, hcol, hbox⟩ r c hu
    rcases hu with hu | hu | hu
    · subst hu; exact hrow c
    · subst hu; exact hcol r
    · exact hbox r c hu.1.symm hu.2.symm

/-- C14: on a board with no non-zero value twice in a row, column or box, placing a digit
1..9 that `isSafe` accepts in an empty cell gives such a board again, and so does resetting
a cell to 0; hence every board on which `solveSudoku` is invoked, at any depth of the
recursion started on such a board, is such a board. -/
theorem consistency_invariant (b : Board) (hc : Consistent b) :
    (∀ row col d, b row col = 0 → ((1 : Int) ≤ d ∧ d ≤ 9) → isSafe b row col d = true →
      Consistent (b.set row col d)) ∧
    (∀ row col, Consistent (b.set row col 0)) ∧
    (∀ x, Relation.TransGen CallStep b x → Consistent x) := by
  refine ⟨fun row col d _ _ hsafe => consistent_set_safe b hc row col d hsafe,
    fun row col => consistent_set_zero b hc row col, fun x hx => ?_⟩
  induction hx with
  | single h => exact callStep_consistent _ _ hc h
  | tail _ h ih => exact callStep_consistent _ _ ih h

theorem consistency_invariant_witness :
    Consistent puzzleA ∧ Consistent (puzzleA.set 0 0 5) ∧
      Consistent ((puzzleA.set 0 0 5).set 0 0 0) ∧ Consistent puzzleAOut :=
  ⟨(completion_wellFormed puzzleA solvedGrid puzzleA_completion).2,
    (consistency_invariant puzzleA
      (completion_wellFormed puzzleA solvedGrid puzzleA_completion).2).1 0 0 5
      (by decide) (by decide) (by decide),
    (consistency_invariant (puzzleA.set 0 0 5)
      ((consistency_invariant puzzleA
        (completion_wellFormed puzzleA solvedGrid puzzleA_completion).2).1 0 0 5
        (by decide) (by decide) (by decide))).2.1 0 0,
    (consistency_invariant puzzleA
      (completion_wellFormed puzzleA solvedGrid puzzleA_completion).2).2.2 puzzleAOut
      (Relation.TransGen.tail (Relation.TransGen.single puzzleA_call) puzzleA_call2)⟩

/-- C16: each recursive call made by an invocation of `solveSudoku` is on a board with
exactly one zero cell fewer than the board of the invocation, so a chain of nested recursive
calls below an invocation is no longer than the number of zero cells of its board, which is
at most 81; and the fuel-bounded solver with fuel = number of zero cells + 1, or any larger
fuel, does not exhaust its fuel and returns what `solveSudoku` returns. -/
theorem recursion_depth (b : Board) :
    (∀ x, CallStep b x → zeros x + 1 = zeros b) ∧
    (∀ chain, List.Chain CallStep b chain → chain.length ≤ zeros b) ∧
    zeros b ≤ 81 ∧
    (∃ v out, solveFuel (zeros b + 1) b = some (v, out) ∧ solveSudoku b = some (v, out)) ∧
    (∀ n, zeros b < n → solveFuel n b = solveSudoku b) := by
  have hindep : ∀ n, zeros b < n → solveFuel n b = solveSudoku b := fun n hn =>
    solveFuel_indep n 82 b hn (Nat.lt_succ_of_le (zeros_le b))
  refine ⟨fun x h => recursiveCalls_zeros b x h, fun chain h => chain_length_le chain b h,
    zeros_le b, ?_, hindep⟩
  obtain ⟨⟨v, out⟩, h⟩ := solveSudoku_total b
  exact ⟨v, out, (hindep _ (Nat.lt_succ_self _)).trans h, h⟩

theorem recursion_depth_witness :
    List.Chain CallStep puzzleA [puzzleA.set 0 0 5, puzzleAOut] ∧
      [puzzleA.set 0 0 5, puzzleAOut].length ≤ zeros puzzleA :=
  ⟨List.Chain.cons puzzleA_call (List.Chain.cons puzzleA_call2 List.Chain.nil),
    (recursion_depth puzzleA).2.1 _
      (List.Chain.cons puzzleA_call (List.Chain.cons puzzleA_call2 List.Chain.nil))⟩

/-- C17: for every input board and every valid completion `s` of it, `solveSudoku` returns
true with a resulting board `t` that is itself a valid completion of the input and is less
than or equal to `s` in the lexicographic order of the 81 cells read in row-major order. -/
theorem least_solution (b s : Board) (hs : IsCompletion b s) :
    ∃ t, solveSudoku b = some (true, t) ∧ IsCompletion b t ∧ LexLE t s := by
  obtain ⟨t, ht, hle⟩ := solveFuel_lex s 82 b (Nat.lt_succ_of_le (zeros_le b)) hs
  obtain ⟨hr, hv, hag, _⟩ := solveSudoku_sound b t (completion_wellFormed b s hs) ht
  exact ⟨t, ht, ⟨hr, hv, hag⟩, hle⟩

theorem least_solution_witness :
    IsCompletion emptyBoard solvedGrid ∧
      ∃ t, solveSudoku emptyBoard = some (true, t) ∧ IsCompletion emptyBoard t ∧
        LexLE t solvedGrid :=
  ⟨emptyBoard_completion, least_solution emptyBoard solvedGrid emptyBoard_completion⟩

/-- C18: for every board, with no precondition, if `solveSudoku` returns true then the
resulting board has no zero cell, and every cell that was 0 in the input holds a digit in
1..9 that differs from the value of every other cell of its row, of its column and of its
aligned 3x3 box in the resulting board. -/
theorem guarantee_on_any_input (b out : Board) (h : solveSudoku b = some (true, out)) :
    NoZero out ∧
    ∀ r c, b r c = 0 →
      (1 ≤ out r c ∧ out r c ≤ 9) ∧
      ∀ r1 c1, (r1, c1) ≠ (r, c) → sameUnit r c r1 c1 → out r1 c1 ≠ out r c :=
  ⟨(solveFuel_true 82 b out h).2.1, (solveFuel_true 82 b out h).2.2⟩

theorem guarantee_on_any_input_witness :
    solveSudoku twoFives = some (true, twoFives.set 8 8 9) ∧
      (NoZero (twoFives.set 8 8 9) ∧
        ∀ r c, twoFives r c = 0 →
          (1 ≤ (twoFives.set 8 8 9) r c ∧ (twoFives.set 8 8 9) r c ≤ 9) ∧
          ∀ r1 c1, (r1, c1) ≠ (r, c) → sameUnit r c r1 c1 →
            (twoFives.set 8 8 9) r1 c1 ≠ (twoFives.set 8 8 9) r c) :=
  ⟨twoFives_run, guarantee_on_any_input twoFives (twoFives.set 8 8 9) twoFives_run⟩


/-! ## The checked functions never leave the grid -/

theorem readCell_fin (b : Board) (r c : Fin 9) :
    readCell b (r.val : Int) (c.val : Int) = some (b r c) := by
  unfold readCell
  rw [dif_pos ⟨⟨by omega, by omega⟩, ⟨by omega, by omega⟩⟩]
  simp

theorem writeCell_fin (b : Board) (r c : Fin 9) (v : Int) :
    writeCell b (r.val : Int) (c.val : Int) v = some (b.set r c v) := by
  unfold writeCell
  rw [dif_pos ⟨⟨by omega, by omega⟩, ⟨by omega, by omega⟩⟩]
  simp

theorem scanCells_fin (b : Board) (num : Int) (l : List (Fin 9 × Fin 9)) :
    scanCells b num (l.map (fun p => ((p.1.val : Int), (p.2.val : Int)))) =
      some (l.any (fun p => b p.1 p.2 == num)) := by
  induction l with
  | nil => rfl
  | cons p rest ih =>
    simp only [List.map_cons, scanCells, readCell_fin, List.any_cons]
    by_cases h : b p.1 p.2 = num
    · simp [h]
    · simp [h, ih]

theorem usedInRowChecked_fin (b : Board) (row : Fin 9) (num : Int) :
    usedInRowChecked b (row.val : Int) num = some (usedInRow b row num) := by
  have hl : ints9.map (fun col => ((row.val : Int), col)) =
      (idx9.map (fun c => (row, c))).map (fun p => ((p.1.val : Int), (p.2.val : Int))) := by
    rfl
  unfold usedInRowChecked usedInRow
  rw [hl, scanCells_fin]
  rfl

theorem usedInColChecked_fin (b : Board) (col : Fin 9) (num : Int) :
    usedInColChecked b (col.val : Int) num = some (usedInCol b col num) := by
  have hl : ints9.map (fun row => (row, (col.val : Int))) =
      (idx9.map (fun r => (r, col))).map (fun p => ((p.1.val : Int), (p.2.val : Int))) := by
    rfl
  unfold usedInColChecked usedInCol
  rw [hl, scanCells_fin]
  rfl

theorem usedInBoxChecked_fin (b : Board) (o1 o2 : Fin 7) (num : Int) :
    usedInBoxChecked b (o1.val : Int) (o2.val : Int) num = some (usedInBox b o1 o2 num) := by
  have hl : ints3.flatMap (fun r => ints3.map (fun c => ((o1.val : Int) + r, (o2.val : Int) + c))) =
      (boxScan o1 o2).map (fun p => ((p.1.val : Int), (p.2.val : Int))) := by
    simp [ints3, idx3, boxScan]
  unfold usedInBoxChecked
  rw [hl, scanCells_fin, usedInBox_boxScan]

theorem isSafeChecked_fin (b : Board) (row col : Fin 9) (num : Int) :
    isSafeChecked b (row.val : Int) (col.val : Int) num = some (isSafe b row col num) := by
  have h1 : (row.val : Int) - (row.val : Int).tmod 3 =
      (((⟨row.val - row.val % 3, by omega⟩ : Fin 7).val : Nat) : Int) := by
    rw [Int.tmod_eq_emod (by omega) (by omega)]
    show (row.val : Int) - (row.val : Int) % 3 = ((row.val - row.val % 3 : Nat) : Int)
    omega
  have h2 : (col.val : Int) - (col.val : Int).tmod 3 =
      (((⟨col.val - col.val % 3, by omega⟩ : Fin 7).val : Nat) : Int) := by
    rw [Int.tmod_eq_emod (by omega) (by omega)]
    show (col.val : Int) - (col.val : Int) % 3 = ((col.val - col.val % 3 : Nat) : Int)
    omega
  unfold isSafeChecked isSafe
  rw [usedInRowChecked_fin, usedInColChecked_fin, h1, h2, usedInBoxChecked_fin]
  cases usedInRow b row num <;> cases usedInCol b col num <;> rfl

theorem findZero_fin (b : Board) (l : List (Fin 9 × Fin 9)) :
    findZero b (l.map (fun p => ((p.1.val : Int), (p.2.val : Int)))) =
      some ((l.find? (fun p => b p.1 p.2 == 0)).map
        (fun p => ((p.1.val : Int), (p.2.val : Int)))) := by
  induction l with
  | nil => rfl
  | cons p rest ih =>
    simp only [List.map_cons, findZero, readCell_fin, List.find?_cons]
    cases hb : (b p.1 p.2 == 0)
    · simp [ih]
    · simp

/-- The nested loops of `findUnassignedLocation` as one scan of the 81 cells in row-major
order. -/
theorem findUnassignedLocation_scan (b : Board) :
    findUnassignedLocation b =
      (idx9.flatMap (fun r => idx9.map (fun c => (r, c)))).find? (fun p => b p.1 p.2 == 0) := by
  unfold findUnassignedLocation
  rw [List.find?_flatMap]
  congr 1
  funext r
  rw [List.find?_map]
  rfl

theorem findUnassignedLocationChecked_fin (b : Board) :
    findUnassignedLocationChecked b =
      some ((findUnassignedLocation b).map (fun p => ((p.1.val : Int), (p.2.val : Int)))) := by
  have hl : ints9.flatMap (fun row => ints9.map (fun col => (row, col))) =
      (idx9.flatMap (fun r => idx9.map (fun c => (r, c)))).map
        (fun p => ((p.1.val : Int), (p.2.val : Int))) := by
    rfl
  unfold findUnassignedLocationChecked
  rw [hl, findZero_fin, findUnassignedLocation_scan]

theorem tryDigitsChecked_fin (solveC : Board → Outcome) (solve : Board → Option (Bool × Board))
    (hsolve : ∀ x, solveC x = Outcome.ofResult (solve x)) (row col : Fin 9) (ds : List Int) :
    ∀ b, tryDigitsChecked solveC (row.val : Int) (col.val : Int) ds b =
      Outcome.ofResult (tryDigits solve row col ds b) := by
  induction ds with
  | nil => intro b; rfl
  | cons num rest ih =>
    intro b
    rw [tryDigitsChecked, tryDigits, isSafeChecked_fin]
    cases hsafe : isSafe b row col num
    · simp only [Bool.false_eq_true, if_false]
      exact ih b
    · simp only [if_true, writeCell_fin, hsolve]
      cases hsol : solve (b.set row col num) with
      | none => rfl
      | some res =>
        obtain ⟨v, y⟩ := res
        cases v
        · simp only [Outcome.ofResult, writeCell_fin]
          exact ih _
        · rfl

theorem solveFuelChecked_fin (fuel : Nat) :
    ∀ b, solveFuelChecked fuel b = Outcome.ofResult (solveFuel fuel b) := by
  induction fuel with
  | zero => intro b; rfl
  | succ n ih =>
    intro b
    rw [solveFuelChecked, solveFuel, findUnassignedLocationChecked_fin]
    cases hfind : findUnassignedLocation b with
    | none => rfl
    | some p =>
      obtain ⟨row, col⟩ := p
      exact tryDigitsChecked_fin (solveFuelChecked n) (solveFuel n) ih row col digits b

/-- C15: with bounds-checked indexing no access of the solver leaves the 9x9 grid:
`findUnassignedLocation` completes its scan without an access outside the grid and, when it
finds a cell, returns row and col in 0..8; for row and col in 0..8 `isSafe` (with its row,
column and box scans, the box scanned from origin (row - row mod 3, col - col mod 3))
completes without an access outside the grid and gives the value of the unchecked `isSafe`;
and `solveSudoku`, whose writes go to the cell returned by `findUnassignedLocation`, ends on
every board without an access outside the grid, with the result and the board of the
unchecked `solveSudoku`. -/
theorem in_bounds (b : Board) :
    (∃ loc, findUnassignedLocationChecked b = some loc ∧
      ∀ row col, loc = some (row, col) → (0 ≤ row ∧ row ≤ 8) ∧ (0 ≤ col ∧ col ≤ 8)) ∧
    (∀ (row col : Fin 9) (num : Int),
      isSafeChecked b (row.val : Int) (col.val : Int) num = some (isSafe b row col num)) ∧
    (∀ (row col : Fin 9) (v : Int), ∃ b1, writeCell b (row.val : Int) (col.val : Int) v = some b1) ∧
    (∃ v out, solveSudokuChecked b = Outcome.done v out ∧ solveSudoku b = some (v, out)) := by
  refine ⟨⟨_, findUnassignedLocationChecked_fin b, ?_⟩, isSafeChecked_fin b,
    fun row col v => ⟨_, writeCell_fin b row col v⟩, ?_⟩
  · intro row col h
    cases hfind : findUnassignedLocation b with
    | none => rw [hfind] at h; simp at h
    | some p =>
      rw [hfind] at h
      simp only [Option.map_some', Option.some.injEq, Prod.mk.injEq] at h
      obtain ⟨h1, h2⟩ := h
      have := p.1.isLt
      have := p.2.isLt
      constructor <;> constructor <;> omega
  · obtain ⟨⟨v, out⟩, h⟩ := solveSudoku_total b
    refine ⟨v, out, ?_, h⟩
    show solveFuelChecked 82 b = _
    rw [solveFuelChecked_fin]
    show Outcome.ofResult (solveSudoku b) = _
    rw [h]
    rfl

theorem in_bounds_witness :
    ∃ v out, solveSudokuChecked puzzleA = Outcome.done v out ∧
      solveSudoku puzzleA = some (v, out) :=
  (in_bounds puzzleA).2.2.2

end Sudoku
